import Mathlib

/-! Verification development for the git-nova Git metadata validation,
sanitization and parsing engine (`GitValidation` in `src/extension.ts`).

Strings are embedded as `List Char`; each JavaScript string operation and
regular expression used by the source is translated into an executable
Lean function on `List Char`. `toLowerCase`/`toUpperCase` are modelled as
ASCII case mapping. -/

namespace GitNova

/-- JS whitespace class: the character set matched by `\s` in JS regular
expressions, which is also the set removed by `String.prototype.trim`. -/
def isJsWs (c : Char) : Bool :=
  c == ' ' || c == '\t' || c == '\n' || c.toNat == 0x0b || c.toNat == 0x0c ||
  c == '\r' || c.toNat == 0xa0 || c.toNat == 0x1680 ||
  (decide (0x2000 ≤ c.toNat) && decide (c.toNat ≤ 0x200a)) ||
  c.toNat == 0x2028 || c.toNat == 0x2029 || c.toNat == 0x202f ||
  c.toNat == 0x205f || c.toNat == 0x3000 || c.toNat == 0xfeff

/-- JS line terminators: the characters that `.` does NOT match in a JS
regular expression without the `s` flag (`\n`, `\r`, U+2028, U+2029). -/
def isLineTerm (c : Char) : Bool :=
  c == '\n' || c == '\r' || c.toNat == 0x2028 || c.toNat == 0x2029

/-- `String.prototype.toLowerCase` restricted to ASCII code points, where
it agrees with ASCII lower-casing. JS performs full Unicode case
conversion (for example U+0130 expands to `i` followed by U+0307), which
is not modelled: theorems whose truth depends on case mapping therefore
restrict their inputs to ASCII. -/
def lowerAscii (c : Char) : Char :=
  if 'A' ≤ c ∧ c ≤ 'Z' then Char.ofNat (c.toNat + 32) else c

/-- `String.prototype.toUpperCase` restricted to ASCII code points, where
it agrees with ASCII upper-casing (see `lowerAscii`). -/
def upperAscii (c : Char) : Char :=
  if 'a' ≤ c ∧ c ≤ 'z' then Char.ofNat (c.toNat - 32) else c

/-- Control characters: the class `[\x00-\x1f\x7f]`. -/
def isControlCh (c : Char) : Bool :=
  decide (c.toNat ≤ 0x1f) || c.toNat == 0x7f

/-- The forbidden git ref character set `[~^:?*\[\]@{\\]`. -/
def isSpecialCh (c : Char) : Bool :=
  c == '~' || c == '^' || c == ':' || c == '?' || c == '*' || c == '[' ||
  c == ']' || c == '@' || c == '\x7b' || c == '\\'

/-- Word characters: the class `\w` = `[A-Za-z0-9_]`. -/
def isWordChar (c : Char) : Bool :=
  (decide ('a' ≤ c) && decide (c ≤ 'z')) ||
  (decide ('A' ≤ c) && decide (c ≤ 'Z')) ||
  (decide ('0' ≤ c) && decide (c ≤ '9')) || c == '_'

/-- The class `[\w-]`. -/
def isWordDash (c : Char) : Bool := isWordChar c || c == '-'

/-- The class `[\w.]`. -/
def isWordDot (c : Char) : Bool := isWordChar c || c == '.'

/-- `l` starts with `p`. -/
def startsList (p l : List Char) : Bool := l.take p.length == p

/-- `l` ends with `s`. -/
def endsList (s l : List Char) : Bool := l.drop (l.length - s.length) == s

/-- Remove the maximal trailing run of characters satisfying `p`
(the replacement `replace(/[...]+$/, '')`). A character is kept when
something after it survives, or when it fails `p` itself. -/
def dropLastWhile (p : Char → Bool) : List Char → List Char
  | [] => []
  | c :: r => if dropLastWhile p r = [] ∧ p c then [] else c :: dropLastWhile p r

/-- Remove trailing JS whitespace. -/
def trimRightWs (l : List Char) : List Char := dropLastWhile isJsWs l

/-- `String.prototype.trim`: removes leading and trailing JS whitespace. -/
def jsTrim (l : List Char) : List Char := trimRightWs (l.dropWhile isJsWs)

/-- `String.prototype.split(sep)` for a one-character separator. `splitCh
d l` is never empty, so prepending to its head chunk is total. -/
def splitCh (d : Char) : List Char → List (List Char)
  | [] => [[]]
  | c :: r =>
    if c = d then [] :: splitCh d r
    else (c :: (splitCh d r).headD []) :: (splitCh d r).tail

/-- `Array.prototype.join(sep)` for a one-character separator. -/
def joinCh (d : Char) : List (List Char) → List Char
  | [] => []
  | [l] => l
  | l :: ls => l ++ d :: joinCh d ls

/-- Whether `l` contains two adjacent occurrences of `d`
(the regular expressions `/\.\./` and `/\/\//`). -/
def hasAdjPair (d : Char) : List Char → Bool
  | a :: b :: r => (a == d && b == d) || hasAdjPair d (b :: r)
  | _ => false

/-! ## Data model: `ValidationResult` and option records -/

/-- The universal result shape of every validation operation. -/
structure ValidationResult where
  valid : Bool
  error : Option String := none
  warnings : Option (List String) := none
  suggestions : Option (List String) := none
deriving DecidableEq, Repr

/-- `BranchValidationOptions` from the source: every field optional;
`none` models an absent key. `pattern` (a caller-supplied `RegExp`) is
modelled as an arbitrary predicate on strings. -/
structure BranchValidationOptions where
  allowSlash : Option Bool := none
  maxLength : Option Nat := none
  reservedNames : Option (List (List Char)) := none
  pattern : Option (List Char → Bool) := none
  enforcedPrefixes : Option (List (List Char)) := none

/-- `DEFAULT_BRANCH_OPTIONS.reservedNames`. -/
def defaultReservedNames : List (List Char) :=
  ["HEAD".data, "FETCH_HEAD".data, "ORIG_HEAD".data, "MERGE_HEAD".data,
   "CHERRY_PICK_HEAD".data]

/-- Branch options after the spread merge `{...DEFAULT_BRANCH_OPTIONS, ...options}`. -/
structure BranchOpts where
  allowSlash : Bool
  maxLength : Nat
  reservedNames : List (List Char)
  pattern : Option (List Char → Bool)
  enforcedPrefixes : Option (List (List Char))

/-- The merge `{...DEFAULT_BRANCH_OPTIONS, ...options}`. -/
def mergeBranchOptions (o : BranchValidationOptions) : BranchOpts where
  allowSlash := o.allowSlash.getD true
  maxLength := o.maxLength.getD 250
  reservedNames := o.reservedNames.getD defaultReservedNames
  pattern := o.pattern
  enforcedPrefixes := o.enforcedPrefixes

/-- `CommitMessageOptions` from the source. -/
structure CommitMessageOptions where
  maxSubjectLength : Option Nat := none
  maxBodyLineLength : Option Nat := none
  requireType : Option Bool := none
  requireScope : Option Bool := none
  allowedTypes : Option (List (List Char)) := none
  allowedScopes : Option (List (List Char)) := none

/-- `DEFAULT_COMMIT_OPTIONS.allowedTypes`. -/
def defaultAllowedTypes : List (List Char) :=
  ["feat".data, "fix".data, "docs".data, "style".data, "refactor".data,
   "perf".data, "test".data, "build".data, "ci".data, "chore".data,
   "revert".data]

/-- Commit options after the spread merge `{...DEFAULT_COMMIT_OPTIONS, ...options}`. -/
structure CommitOpts where
  maxSubjectLength : Nat
  maxBodyLineLength : Nat
  requireType : Bool
  requireScope : Bool
  allowedTypes : Option (List (List Char))
  allowedScopes : Option (List (List Char))

/-- The merge `{...DEFAULT_COMMIT_OPTIONS, ...options}`. -/
def mergeCommitOptions (o : CommitMessageOptions) : CommitOpts where
  maxSubjectLength := o.maxSubjectLength.getD 72
  maxBodyLineLength := o.maxBodyLineLength.getD 100
  requireType := o.requireType.getD false
  requireScope := o.requireScope.getD false
  allowedTypes := o.allowedTypes.orElse (fun _ => some defaultAllowedTypes)
  allowedScopes := o.allowedScopes

/-! ## `GitValidation.validateBranchName` -/

/-- The prefix-enforcement failure condition: `enforcePrefix` is present
and non-empty, and no configured `prefix + "/"` starts the name. -/
def enforcedPrefixFail (opts : BranchOpts) (t : List Char) : Bool :=
  match opts.enforcedPrefixes with
  | some ps => !ps.isEmpty && !ps.any (fun p => startsList (p ++ ['/']) t)
  | none => false

/-- The custom-pattern failure condition: a `pattern` is present and the
trimmed name does not satisfy it. -/
def patternFail (opts : BranchOpts) (t : List Char) : Bool :=
  match opts.pattern with
  | some pt => !(pt t)
  | none => false

/-- `GitValidation.validateBranchName`, translated check by check from the
source (each `if` is one early `return`). -/
def validateBranchName (name : List Char)
    (options : BranchValidationOptions := {}) : ValidationResult :=
  let opts := mergeBranchOptions options
  if jsTrim name = [] then
    ⟨false, some "Branch name cannot be empty", none, none⟩
  else
    let t := jsTrim name
    if opts.maxLength ≠ 0 ∧ opts.maxLength < t.length then
      ⟨false, some ("Branch name exceeds maximum length of " ++
        toString opts.maxLength ++ " characters"), none, none⟩
    else if opts.reservedNames.contains (t.map upperAscii) then
      ⟨false, some ("\x27" ++ String.mk t ++
        "\x27 is a reserved name and cannot be used as a branch name"), none, none⟩
    else if startsList ['.'] t then
      ⟨false, some "Branch name cannot start with a dot", none, none⟩
    else if endsList ['.'] t then
      ⟨false, some "Branch name cannot end with a dot", none, none⟩
    else if endsList ".lock".data t then
      ⟨false, some "Branch name cannot end with .lock", none, none⟩
    else if hasAdjPair '.' t then
      ⟨false, some "Branch name cannot contain consecutive dots", none, none⟩
    else if startsList ['-'] t then
      ⟨false, some "Branch name cannot start with a dash", none, none⟩
    else if endsList ['/'] t then
      ⟨false, some "Branch name cannot end with a slash", none, none⟩
    else if hasAdjPair '/' t then
      ⟨false, some "Branch name cannot contain consecutive slashes", none, none⟩
    else if t.any isJsWs then
      ⟨false, some "Branch name cannot contain spaces", none, none⟩
    else if t.any isControlCh then
      ⟨false, some "Branch name cannot contain control characters", none, none⟩
    else if t.any isSpecialCh then
      ⟨false, some "Branch name cannot contain special characters: ~ ^ : ? * [ ] @ \x7b \\",
        none, none⟩
    else if !opts.allowSlash && t.contains '/' then
      ⟨false, some "Branch name cannot contain slashes", none, none⟩
    else if enforcedPrefixFail opts t then
      ⟨false, some ("Branch name must start with one of: " ++
          String.intercalate ", " ((opts.enforcedPrefixes.getD []).map String.mk)),
        none,
        some ((opts.enforcedPrefixes.getD []).map
          (fun p => String.mk p ++ "/" ++ String.mk t))⟩
    else if patternFail opts t then
      ⟨false, some "Branch name does not match the required pattern", none, none⟩
    else
      ⟨true, none,
        some ((if t.length < 3 then
                 ["Branch name is very short, consider using a more descriptive name"]
               else []) ++
              (if t.any (fun c => decide ('A' ≤ c) && decide (c ≤ 'Z')) then
                 ["Branch name contains uppercase letters, lowercase is recommended"]
               else []) ++
              (if t.contains '_' then
                 ["Branch name contains underscores, consider using dashes instead"]
               else [])),
        some (if ¬ t.contains '/' then
                ["Consider using a prefix like feature/, bugfix/, or hotfix/ for better organization"]
              else [])⟩

/-- The ordered rule list of §4.1 of the spec: one `(violated, message)`
pair per check, in the order the spec states them (empty, max length,
reserved name, leading dot, trailing dot, `.lock` suffix, consecutive
dots, leading dash, trailing slash, consecutive slashes, whitespace,
control characters, special characters, `allowSlash`, prefix enforcement,
pattern). Written from the spec's words as the reference for the
short-circuit priority claim. -/
def branchChecks (name : List Char) (options : BranchValidationOptions) :
    List (Bool × String) :=
  let opts := mergeBranchOptions options
  let t := jsTrim name
  [(decide (jsTrim name = []), "Branch name cannot be empty"),
   (decide (opts.maxLength ≠ 0 ∧ opts.maxLength < t.length),
     "Branch name exceeds maximum length of " ++ toString opts.maxLength ++ " characters"),
   (opts.reservedNames.contains (t.map upperAscii),
     "\x27" ++ String.mk t ++ "\x27 is a reserved name and cannot be used as a branch name"),
   (startsList ['.'] t, "Branch name cannot start with a dot"),
   (endsList ['.'] t, "Branch name cannot end with a dot"),
   (endsList ".lock".data t, "Branch name cannot end with .lock"),
   (hasAdjPair '.' t, "Branch name cannot contain consecutive dots"),
   (startsList ['-'] t, "Branch name cannot start with a dash"),
   (endsList ['/'] t, "Branch name cannot end with a slash"),
   (hasAdjPair '/' t, "Branch name cannot contain consecutive slashes"),
   (t.any isJsWs, "Branch name cannot contain spaces"),
   (t.any isControlCh, "Branch name cannot contain control characters"),
   (t.any isSpecialCh, "Branch name cannot contain special characters: ~ ^ : ? * [ ] @ \x7b \\"),
   (!opts.allowSlash && t.contains '/', "Branch name cannot contain slashes"),
   (enforcedPrefixFail opts t,
     "Branch name must start with one of: " ++
       String.intercalate ", " ((opts.enforcedPrefixes.getD []).map String.mk)),
   (patternFail opts t, "Branch name does not match the required pattern")]

/-- The message of the earliest-checked violated rule, per the spec's
fixed order. -/
def firstBranchError (name : List Char) (options : BranchValidationOptions) :
    Option String :=
  ((branchChecks name options).find? (fun c => c.1)).map (fun c => c.2)

/-! ## `GitValidation.sanitizeBranchName` -/

/-- `replace(/p+/g, '-')`: each maximal run of characters satisfying `p`
becomes a single `-`. The Bool argument records whether the previous
character was part of a run. -/
def dashRuns (p : Char → Bool) : List Char → Bool → List Char
  | [], _ => []
  | c :: r, inRun =>
    if p c then
      (if inRun then dashRuns p r true else '-' :: dashRuns p r true)
    else c :: dashRuns p r false

/-- `replace(/d{2,}/g, d)`: each maximal run of `d` of length two or more
collapses to a single `d` (runs of length one are untouched, which is the
same result). -/
def collapseRuns (d : Char) : List Char → Bool → List Char
  | [], _ => []
  | c :: r, inRun =>
    if c = d then
      (if inRun then collapseRuns d r true else c :: collapseRuns d r true)
    else c :: collapseRuns d r false

/-- The character class `[-./]` used by the edge-stripping steps. -/
def isEdgeCh (c : Char) : Bool := c == '-' || c == '.' || c == '/'

/-- `GitValidation.sanitizeBranchName`: the ten-step normalization
pipeline, in source order. -/
def sanitizeBranchName (name : List Char) : List Char :=
  let s1 := (jsTrim name).map lowerAscii
  let s2 := dashRuns isJsWs s1 false
  let s3 := dashRuns (fun c => c == '_') s2 false
  let s4 := s3.filter (fun c => !isSpecialCh c)
  let s5 := collapseRuns '.' s4 false
  let s6 := collapseRuns '/' s5 false
  let s7 := s6.dropWhile isEdgeCh
  let s8 := dropLastWhile isEdgeCh s7
  s8.take 250

/-! ## `GitValidation.validateTagName` -/

/-- Tail of the semver regex after the pre-release part: `(\+[\w.]+)?$`. -/
def semverPlus : List Char → Bool
  | [] => true
  | '+' :: r => !r.isEmpty && r.all isWordDot
  | _ => false

/-- Tail of the semver regex after the three numbers: `(-[\w.]+)?(\+[\w.]+)?$`. -/
def semverPre : List Char → Bool
  | '-' :: r =>
    let w := r.takeWhile isWordDot
    !w.isEmpty && semverPlus (r.drop w.length)
  | l => semverPlus l

/-- Consume `\d+\.` from the front. -/
def numDot (l : List Char) : Option (List Char) :=
  let d := l.takeWhile Char.isDigit
  if d.isEmpty then none
  else
    match l.drop d.length with
    | '.' :: r => some r
    | _ => none

/-- The semver pattern `/^v?\d+\.\d+\.\d+(-[\w.]+)?(\+[\w.]+)?$/`. -/
def semverTest (l : List Char) : Bool :=
  let l1 := match l with | 'v' :: r => r | l => l
  match numDot l1 with
  | none => false
  | some r1 =>
    match numDot r1 with
    | none => false
    | some r2 =>
      let d := r2.takeWhile Char.isDigit
      !d.isEmpty && semverPre (r2.drop d.length)

/-- `GitValidation.validateTagName`. -/
def validateTagName (name : List Char) : ValidationResult :=
  if jsTrim name = [] then
    ⟨false, some "Tag name cannot be empty", none, none⟩
  else
    let t := jsTrim name
    if t.any isJsWs then
      ⟨false, some "Tag name cannot contain spaces", none, none⟩
    else if t.any isSpecialCh then
      ⟨false, some "Tag name cannot contain special characters: ~ ^ : ? * [ ] @ \x7b \\",
        none, none⟩
    else if startsList ['-'] t then
      ⟨false, some "Tag name cannot start with a dash", none, none⟩
    else if !semverTest t then
      ⟨true, none, none, some ["Consider using semantic versioning format: v1.0.0"]⟩
    else
      ⟨true, none, none, none⟩

/-! ## `GitValidation.validateRemoteName` -/

/-- `GitValidation.validateRemoteName`. -/
def validateRemoteName (name : List Char) : ValidationResult :=
  if jsTrim name = [] then
    ⟨false, some "Remote name cannot be empty", none, none⟩
  else
    let t := jsTrim name
    if t.any isJsWs then
      ⟨false, some "Remote name cannot contain spaces", none, none⟩
    else if t.any (fun c => isSpecialCh c || c == '/') then
      ⟨false, some "Remote name cannot contain special characters", none, none⟩
    else if (["origin".data, "upstream".data, "fork".data].contains (t.map lowerAscii)) = false then
      ⟨true, none, none, some ["Common remote names: origin, upstream, fork"]⟩
    else
      ⟨true, none, none, none⟩

/-! ## `GitValidation.validateRemoteUrl` -/

/-- `[^\s]+\.git$` on an already lower-cased remainder: ends with `.git`
preceded by at least one non-whitespace character. -/
def midGitTail (r : List Char) : Bool :=
  decide (5 ≤ r.length) && r.drop (r.length - 4) == ".git".data &&
  (r.take (r.length - 4)).all (fun c => !isJsWs c)

/-- `/^https?:\/\/[^\s]+\.git$/i`. -/
def httpsUrlTest (u : List Char) : Bool :=
  let w := u.map lowerAscii
  if startsList "https://".data w then midGitTail (w.drop 8)
  else if startsList "http://".data w then midGitTail (w.drop 7)
  else false

/-- `/^git@[^\s:]+:[^\s]+\.git$/i`. The host part `[^\s:]+` is the
maximal run of non-whitespace non-colon characters; the literal `:`
must follow it. -/
def sshScpUrlTest (u : List Char) : Bool :=
  let w := u.map lowerAscii
  if startsList "git@".data w then
    let r := w.drop 4
    let host := r.takeWhile (fun c => !isJsWs c && c != ':')
    !host.isEmpty && startsList [':'] (r.drop host.length) &&
      midGitTail ((r.drop host.length).drop 1)
  else false

/-- `/^ssh:\/\/[^\s]+\.git$/i`. -/
def sshUrlTest (u : List Char) : Bool :=
  let w := u.map lowerAscii
  startsList "ssh://".data w && midGitTail (w.drop 6)

/-- `/^git:\/\/[^\s]+\.git$/i`. -/
def gitUrlTest (u : List Char) : Bool :=
  let w := u.map lowerAscii
  startsList "git://".data w && midGitTail (w.drop 6)

/-- `/^(file:\/\/)?\/[^\s]+$/` (no case-insensitive flag). -/
def fileUrlTest (u : List Char) : Bool :=
  let r := if startsList "file://".data u then u.drop 7 else u
  startsList ['/'] r && !(r.drop 1).isEmpty && (r.drop 1).all (fun c => !isJsWs c)

/-- `GitValidation.validateRemoteUrl`. -/
def validateRemoteUrl (url : List Char) : ValidationResult :=
  if jsTrim url = [] then
    ⟨false, some "Remote URL cannot be empty", none, none⟩
  else
    let t := jsTrim url
    if !(httpsUrlTest t || sshScpUrlTest t || sshUrlTest t || gitUrlTest t ||
         fileUrlTest t) then
      ⟨false, some "Invalid remote URL format", none,
        some ["HTTPS: https://github.com/user/repo.git",
              "SSH: git@github.com:user/repo.git"]⟩
    else if gitUrlTest t then
      ⟨true, none, some ["Git protocol is unencrypted. Consider using HTTPS or SSH."], none⟩
    else
      ⟨true, none, none, none⟩

/-- No JS whitespace character occurs in `l` (the content of `[^\s]+`). -/
def noWsList (l : List Char) : Prop := ∀ c ∈ l, isJsWs c = false

/-- Spec-side shape: a case-insensitive `https://` or `http://` URL
ending in `.git` with a non-empty whitespace-free middle. -/
def HttpsShape (t : List Char) : Prop :=
  ∃ pre m, (pre = "https://".data ∨ pre = "http://".data) ∧
    t.map lowerAscii = pre ++ (m ++ ".git".data) ∧ m ≠ [] ∧ noWsList m

/-- Spec-side shape: SSH shorthand `git@host:path.git` (case-insensitive,
with the literal user `git`). -/
def SshScpShape (t : List Char) : Prop :=
  ∃ host path, t.map lowerAscii =
      "git@".data ++ (host ++ ':' :: (path ++ ".git".data)) ∧
    host ≠ [] ∧ noWsList host ∧ ':' ∉ host ∧ path ≠ [] ∧ noWsList path

/-- Spec-side shape: `ssh://…git` (case-insensitive). -/
def SshUrlShape (t : List Char) : Prop :=
  ∃ m, t.map lowerAscii = "ssh://".data ++ (m ++ ".git".data) ∧ m ≠ [] ∧ noWsList m

/-- Spec-side shape: `git://…git` (case-insensitive). -/
def GitUrlShape (t : List Char) : Prop :=
  ∃ m, t.map lowerAscii = "git://".data ++ (m ++ ".git".data) ∧ m ≠ [] ∧ noWsList m

/-- Spec-side shape: an absolute local file path, optionally prefixed
with a (lower-case) `file://`. -/
def FileShape (t : List Char) : Prop :=
  ∃ m, (t = "file://".data ++ '/' :: m ∨ t = '/' :: m) ∧ m ≠ [] ∧ noWsList m

/-- The five accepted remote-URL shapes. -/
def RemoteUrlShape (t : List Char) : Prop :=
  HttpsShape t ∨ SshScpShape t ∨ SshUrlShape t ∨ GitUrlShape t ∨ FileShape t

/-! ## `GitValidation.validateStashMessage` -/

/-- `GitValidation.validateStashMessage`. -/
def validateStashMessage (message : List Char) : ValidationResult :=
  if jsTrim message = [] then
    ⟨true, none, none, some ["Consider adding a descriptive message for your stash"]⟩
  else
    let t := jsTrim message
    if 500 < t.length then
      ⟨false, some "Stash message is too long (max 500 characters)", none, none⟩
    else
      ⟨true, none, none, none⟩

/-! ## `GitValidation.validateFilePath` -/

/-- Whether `..` sits at the head of `l` as a complete path segment:
the part `\.\.($|\/)` of the traversal regex. -/
def ddAtHead : List Char → Bool
  | a :: b :: rest => a == '.' && b == '.' && (rest.isEmpty || rest.headD ' ' == '/')
  | _ => false

/-- Scan for `/..` followed by `/` or end: the after-separator
occurrences of the traversal regex. -/
def hasTraversalAux : List Char → Bool
  | [] => false
  | c :: r => (c == '/' && ddAtHead r) || hasTraversalAux r

/-- The traversal regex `/(^|\/)\.\.($|\/)/`. -/
def hasTraversal (l : List Char) : Bool := ddAtHead l || hasTraversalAux l

/-- `GitValidation.validateFilePath`. -/
def validateFilePath (filePath : List Char) : ValidationResult :=
  if jsTrim filePath = [] then
    ⟨false, some "File path cannot be empty", none, none⟩
  else
    let t := jsTrim filePath
    if t.contains '\x00' then
      ⟨false, some "File path cannot contain null bytes", none, none⟩
    else if hasTraversal t then
      ⟨false, some "File path cannot contain parent directory references (..)", none, none⟩
    else
      ⟨true, none, none, none⟩

/-! ## Commit message engine -/

/-- Scope part of the subject regex: `(?:\(([^)]+)\))?` applied at the
position after the type. When the input does not start with `(` the
optional group matches empty. When it does start with `(` and the group
cannot complete, the whole regex fails, because the continuation
`(!)?:` can never match at a `(`. -/
def scanScope : List Char → Option (Option (List Char) × List Char)
  | '(' :: r =>
    let s := r.takeWhile (fun c => c != ')')
    (match r.drop s.length with
     | ')' :: r2 => if s.isEmpty then none else some (some s, r2)
     | _ => none)
  | l => some (none, l)

/-- Breaking marker `(!)?` of the subject regex. -/
def scanBang : List Char → Bool × List Char
  | '!' :: r => (true, r)
  | l => (false, l)

/-- Description part `\s*(.+)$` of the subject regex, applied after the
colon. `.` matches any character except a line terminator (`isLineTerm`),
and `$` (no `m` flag) anchors at the end of the string, so the
description must run to the end and be terminator-free. Backtracking:
`\s*` first takes the maximal whitespace run; if nothing is left for
`.+`, it gives back one character, which `.` must then match; any
terminator after the start of the candidate description kills every
split, because each shorter whitespace run only enlarges the suffix
`.+$` has to cover. -/
def scanDesc (rest : List Char) : Option (List Char) :=
  let w := rest.takeWhile isJsWs
  match rest.drop w.length with
  | [] =>
    if rest.isEmpty then none
    else if isLineTerm (rest.getLastD ' ') then none
    else some [rest.getLastD ' ']
  | r => if r.any isLineTerm then none else some r

/-- The conventional-commit subject regex
`/^(\w+)(?:\(([^)]+)\))?(!)?:\s*(.+)$/`, returning
(type, scope, breaking, description). -/
def matchConventionalSubject (l : List Char) :
    Option (List Char × Option (List Char) × Bool × List Char) :=
  let ty := l.takeWhile isWordChar
  if ty.isEmpty then none
  else
    match scanScope (l.drop ty.length) with
    | none => none
    | some (sc, r1) =>
      let br := scanBang r1
      match br.2 with
      | ':' :: rest =>
        (match scanDesc rest with
         | none => none
         | some d => some (ty, sc, br.1, d))
      | _ => none

/-- The footer-start regex `/^[\w-]+:\s|^[\w-]+\s#/`. -/
def isFooterLine (l : List Char) : Bool :=
  let w := l.takeWhile isWordDash
  !w.isEmpty &&
    (match l.drop w.length with
     | ':' :: c :: _ => isJsWs c
     | c :: '#' :: _ => isJsWs c
     | _ => false)

/-- The body/footer classification loop of `parseConventionalCommit`:
returns (bodyLines, footerLines). The Bool is the `inFooter` flag. -/
def classifyLines : List (List Char) → Bool → List (List Char) × List (List Char)
  | [], _ => ([], [])
  | l :: ls, inF =>
    let inF2 := inF || isFooterLine l
    let rest := classifyLines ls inF2
    if inF2 then (rest.1, l :: rest.2) else (l :: rest.1, rest.2)

/-- Output shape of `GitValidation.parseConventionalCommit`. -/
structure ParsedConventionalCommit where
  type : List Char
  scope : Option (List Char)
  breaking : Bool
  description : List Char
  body : Option (List Char)
  footer : Option (List Char)
deriving DecidableEq, Repr

/-- `GitValidation.parseConventionalCommit`. -/
def parseConventionalCommit (message : List Char) : Option ParsedConventionalCommit :=
  let lines := splitCh '\n' message
  match matchConventionalSubject (lines.headD []) with
  | none => none
  | some (ty, sc, bang, d) =>
    let bf :=
      if 2 < lines.length then
        let c := classifyLines (lines.drop 2) false
        ((if !c.1.isEmpty then some (jsTrim (joinCh '\n' c.1)) else none),
         (if !c.2.isEmpty then some (jsTrim (joinCh '\n' c.2)) else none))
      else (none, none)
    some ⟨ty, sc, bang, d, bf.1, bf.2⟩

/-- `GitValidation.generateConventionalCommit`. JS truthiness: an absent
or empty scope/body/footer is skipped. -/
def generateConventionalCommit (ty : List Char) (scope : Option (List Char))
    (description : List Char) (body : Option (List Char) := none)
    (breaking : Bool := false) (footer : Option (List Char) := none) : List Char :=
  ty ++
  (match scope with
   | some s => if s.isEmpty then [] else '(' :: s ++ [')']
   | none => []) ++
  (if breaking then ['!'] else []) ++
  ':' :: ' ' :: description ++
  (match body with
   | some b => if b.isEmpty then [] else '\n' :: '\n' :: b
   | none => []) ++
  (match footer with
   | some f => if f.isEmpty then [] else '\n' :: '\n' :: f
   | none => [])

/-- The subject line built by `generateConventionalCommit` (everything
before the body/footer parts). -/
def genSubjectLine (ty : List Char) (sc : Option (List Char)) (br : Bool)
    (d : List Char) : List Char :=
  ty ++
  (match sc with
   | some s => if s.isEmpty then [] else '(' :: s ++ [')']
   | none => []) ++
  (if br then ['!'] else []) ++ ':' :: ' ' :: d

/-- The tail of `GitValidation.validateCommitMessage` reached when no
hard check fails: body-format and style warnings, then the valid result. -/
def commitSuccess (lines : List (List Char)) (subject : List Char)
    (m : Option (List Char × Option (List Char) × Bool × List Char))
    (opts : CommitOpts) : ValidationResult :=
  ⟨true, none,
    some ((if 1 < lines.length ∧ jsTrim (lines.getD 1 []) ≠ [] then
             ["The second line should be blank to separate subject from body"]
           else []) ++
          (if 1 < lines.length then
             (lines.drop 2).enum.filterMap (fun p =>
               if opts.maxBodyLineLength ≠ 0 ∧ opts.maxBodyLineLength < p.2.length then
                 some ("Line " ++ toString (p.1 + 3) ++ " exceeds " ++
                   toString opts.maxBodyLineLength ++ " characters")
               else none)
           else []) ++
          (if endsList ['.'] subject then
             ["Subject line should not end with a period"]
           else [])),
    some ((if !(decide ('A' ≤ subject.headD ' ') && decide (subject.headD ' ' ≤ 'Z')) ∧
              m.isNone then
             ["Consider capitalizing the first letter of the subject"]
           else []) ++
          (if m.isNone ∧ subject ≠ [] then
             ["Consider using Conventional Commits format: type(scope): description"]
           else []))⟩

/-- `GitValidation.validateCommitMessage`, translated check by check. -/
def validateCommitMessage (message : List Char)
    (options : CommitMessageOptions := {}) : ValidationResult :=
  let opts := mergeCommitOptions options
  if jsTrim message = [] then
    ⟨false, some "Commit message cannot be empty", none, none⟩
  else
    let lines := splitCh '\n' message
    let subject := jsTrim (lines.headD [])
    if subject = [] then
      ⟨false, some "Commit subject line cannot be empty", none, none⟩
    else if opts.maxSubjectLength ≠ 0 ∧ opts.maxSubjectLength < subject.length then
      ⟨false, some ("Commit subject line exceeds " ++ toString opts.maxSubjectLength ++
          " characters (" ++ toString subject.length ++ ")"), none,
        some ["Consider: \"" ++ String.mk (subject.take (opts.maxSubjectLength - 3)) ++
          "...\""]⟩
    else
      let m := matchConventionalSubject subject
      if opts.requireType then
        match m with
        | none =>
          ⟨false,
            some "Commit message must follow Conventional Commits format: type(scope): description",
            none,
            some ["Example: feat: " ++ String.mk subject,
                  "Example: fix(core): " ++ String.mk subject]⟩
        | some (ty, sc, _, _) =>
          if (match opts.allowedTypes with
              | some ts => !ts.contains ty
              | none => false) then
            ⟨false, some ("Invalid commit type: \x27" ++ String.mk ty ++
                "\x27. Allowed types: " ++
                String.intercalate ", " ((opts.allowedTypes.getD []).map String.mk)),
              none, none⟩
          else if opts.requireScope ∧ sc.isNone then
            ⟨false, some "Commit message must include a scope: type(scope): description",
              none, none⟩
          else if (match sc, opts.allowedScopes with
              | some s, some ss => !ss.contains s
              | _, _ => false) then
            ⟨false, some ("Invalid commit scope: \x27" ++
                String.mk (sc.getD []) ++ "\x27. Allowed scopes: " ++
                String.intercalate ", " ((opts.allowedScopes.getD []).map String.mk)),
              none, none⟩
          else commitSuccess lines subject m opts
      else commitSuccess lines subject m opts

/-- The part of the C2 invariant that does hold: `error` is present
exactly when `valid` is false, and `warnings` never accompany an error. -/
def errorInvariant (r : ValidationResult) : Prop :=
  r.error.isSome = !r.valid ∧ (r.error.isSome && r.warnings.isSome) = false

/-! ## General lemmas about the string helpers -/

theorem dropWhile_idem (p : Char → Bool) (l : List Char) :
    (l.dropWhile p).dropWhile p = l.dropWhile p := by
  induction l with
  | nil => rfl
  | cons c r ih =>
    by_cases h : p c
    · simp [List.dropWhile_cons, h, ih]
    · simp [List.dropWhile_cons, h]

theorem dropLastWhile_idem (p : Char → Bool) (l : List Char) :
    dropLastWhile p (dropLastWhile p l) = dropLastWhile p l := by
  induction l with
  | nil => rfl
  | cons c r ih =>
    by_cases h : dropLastWhile p r = [] ∧ p c
    · simp [dropLastWhile, h]
    · rw [dropLastWhile, if_neg h, dropLastWhile, ih, if_neg h]

theorem length_dropWhile_le (p : Char → Bool) (l : List Char) :
    (l.dropWhile p).length ≤ l.length := by
  induction l with
  | nil => simp
  | cons c r ih =>
    by_cases h : p c
    · rw [List.dropWhile_cons, if_pos h]
      exact Nat.le_succ_of_le ih
    · rw [List.dropWhile_cons, if_neg h]

theorem dropWhile_dropLastWhile (p : Char → Bool) (l : List Char)
    (h : l.dropWhile p = l) :
    (dropLastWhile p l).dropWhile p = dropLastWhile p l := by
  cases l with
  | nil => rfl
  | cons c r =>
    have hc : ¬ p c = true := by
      intro hp
      have := h
      rw [List.dropWhile_cons, if_pos hp] at this
      have hlen := congrArg List.length this
      have := length_dropWhile_le p r
      simp at hlen
      omega
    by_cases h2 : dropLastWhile p r = [] ∧ p c
    · rw [dropLastWhile, if_pos h2]
      rfl
    · rw [dropLastWhile, if_neg h2, List.dropWhile_cons, if_neg hc]

theorem jsTrim_idem (l : List Char) : jsTrim (jsTrim l) = jsTrim l := by
  rw [jsTrim, jsTrim, trimRightWs, trimRightWs]
  rw [dropWhile_dropLastWhile isJsWs _ (dropWhile_idem isJsWs l)]
  exact dropLastWhile_idem isJsWs _

/-! ## validateBranchName rule-order case analysis -/

/-! ## Lemmas about the sanitization combinators -/

theorem toNat_ofNat_valid (n : Nat) (hv : Nat.isValidChar n) :
    (Char.ofNat n).toNat = n := by
  unfold Char.ofNat Char.ofNatAux
  rw [dif_pos hv]
  rfl

theorem char_le_iff_toNat (a b : Char) : a ≤ b ↔ a.toNat ≤ b.toNat := by
  simp [Char.le_def, UInt32.le_def, BitVec.le_def, Char.toNat, UInt32.toNat]

theorem lowerAscii_idem (c : Char) : lowerAscii (lowerAscii c) = lowerAscii c := by
  unfold lowerAscii
  by_cases h : 'A' ≤ c ∧ c ≤ 'Z'
  · rw [if_pos h]
    have h1 := (char_le_iff_toNat 'A' c).mp h.1
    have h2 := (char_le_iff_toNat c 'Z').mp h.2
    have hv : Nat.isValidChar (c.toNat + 32) := by
      unfold Nat.isValidChar
      left
      have : c.toNat ≤ 90 := h2
      omega
    have ht : (Char.ofNat (c.toNat + 32)).toNat = c.toNat + 32 := toNat_ofNat_valid _ hv
    rw [if_neg]
    rintro ⟨h3, h4⟩
    have h4b := (char_le_iff_toNat _ 'Z').mp h4
    rw [ht] at h4b
    have h1b : 65 ≤ c.toNat := h1
    have h4c : c.toNat + 32 ≤ 90 := h4b
    omega
  · rw [if_neg h, if_neg h]

theorem dashRuns_mem (p : Char → Bool) (l : List Char) :
    ∀ b c, c ∈ dashRuns p l b → c ∈ l ∨ c = '-' := by
  induction l with
  | nil => intro b c h; simp [dashRuns] at h
  | cons x xs ih =>
    intro b c h
    by_cases hp : p x
    · cases b with
      | false =>
        rw [dashRuns, if_pos hp] at h
        simp only [Bool.false_eq_true, if_false] at h
        rcases List.mem_cons.mp h with h1 | h1
        · exact Or.inr h1
        · rcases ih true c h1 with h2 | h2
          · exact Or.inl (List.mem_cons_of_mem _ h2)
          · exact Or.inr h2
      | true =>
        rw [dashRuns, if_pos hp] at h
        simp only [if_true] at h
        rcases ih true c h with h2 | h2
        · exact Or.inl (List.mem_cons_of_mem _ h2)
        · exact Or.inr h2
    · rw [dashRuns, if_neg hp] at h
      rcases List.mem_cons.mp h with h1 | h1
      · exact Or.inl (h1 ▸ List.mem_cons_self _ _)
      · rcases ih false c h1 with h2 | h2
        · exact Or.inl (List.mem_cons_of_mem _ h2)
        · exact Or.inr h2

theorem dashRuns_not_p (p : Char → Bool) (hdash : p '-' = false) (l : List Char) :
    ∀ b c, c ∈ dashRuns p l b → p c = false := by
  induction l with
  | nil => intro b c h; simp [dashRuns] at h
  | cons x xs ih =>
    intro b c h
    by_cases hp : p x
    · cases b with
      | false =>
        rw [dashRuns, if_pos hp] at h
        simp only [Bool.false_eq_true, if_false] at h
        rcases List.mem_cons.mp h with h1 | h1
        · rw [h1]; exact hdash
        · exact ih true c h1
      | true =>
        rw [dashRuns, if_pos hp] at h
        simp only [if_true] at h
        exact ih true c h
    · rw [dashRuns, if_neg hp] at h
      rcases List.mem_cons.mp h with h1 | h1
      · rw [h1]; simpa using hp
      · exact ih false c h1

theorem dashRuns_eq_self (p : Char → Bool) (l : List Char)
    (h : ∀ c ∈ l, p c = false) : dashRuns p l false = l := by
  induction l with
  | nil => rfl
  | cons x xs ih =>
    have hx : ¬ p x = true := by simp [h x (List.mem_cons_self _ _)]
    rw [dashRuns, if_neg hx, ih (fun c hc => h c (List.mem_cons_of_mem _ hc))]

theorem dashRuns_length (p : Char → Bool) (l : List Char) :
    ∀ b, (dashRuns p l b).length ≤ l.length := by
  induction l with
  | nil => intro b; simp [dashRuns]
  | cons x xs ih =>
    intro b
    by_cases hp : p x
    · cases b with
      | false =>
        rw [dashRuns, if_pos hp]
        simp only [Bool.false_eq_true, if_false, List.length_cons]
        exact Nat.succ_le_succ (ih true)
      | true =>
        rw [dashRuns, if_pos hp]
        simp only [if_true]
        exact Nat.le_succ_of_le (ih true)
    · rw [dashRuns, if_neg hp]
      exact Nat.succ_le_succ (ih false)

theorem collapseRuns_mem (d : Char) (l : List Char) :
    ∀ b c, c ∈ collapseRuns d l b → c ∈ l := by
  induction l with
  | nil => intro b c h; simp [collapseRuns] at h
  | cons x xs ih =>
    intro b c h
    by_cases hx : x = d
    · cases b with
      | false =>
        rw [collapseRuns, if_pos hx] at h
        simp only [Bool.false_eq_true, if_false] at h
        rcases List.mem_cons.mp h with h1 | h1
        · exact h1 ▸ List.mem_cons_self _ _
        · exact List.mem_cons_of_mem _ (ih true c h1)
      | true =>
        rw [collapseRuns, if_pos hx] at h
        simp only [if_true] at h
        exact List.mem_cons_of_mem _ (ih true c h)
    · rw [collapseRuns, if_neg hx] at h
      rcases List.mem_cons.mp h with h1 | h1
      · exact h1 ▸ List.mem_cons_self _ _
      · exact List.mem_cons_of_mem _ (ih false c h1)

theorem collapseRuns_length (d : Char) (l : List Char) :
    ∀ b, (collapseRuns d l b).length ≤ l.length := by
  induction l with
  | nil => intro b; simp [collapseRuns]
  | cons x xs ih =>
    intro b
    by_cases hx : x = d
    · cases b with
      | false =>
        rw [collapseRuns, if_pos hx]
        simp only [Bool.false_eq_true, if_false, List.length_cons]
        exact Nat.succ_le_succ (ih true)
      | true =>
        rw [collapseRuns, if_pos hx]
        simp only [if_true]
        exact Nat.le_succ_of_le (ih true)
    · rw [collapseRuns, if_neg hx]
      exact Nat.succ_le_succ (ih false)

theorem hasAdjPair_cons_of (d c : Char) (X : List Char)
    (h : hasAdjPair d X = true) : hasAdjPair d (c :: X) = true := by
  cases X with
  | nil => simp [hasAdjPair] at h
  | cons x xs =>
    rw [hasAdjPair, h]
    simp

theorem hasAdjPair_tail (d c : Char) (r : List Char)
    (h : hasAdjPair d (c :: r) = false) : hasAdjPair d r = false := by
  cases hr : hasAdjPair d r with
  | false => rfl
  | true => rw [hasAdjPair_cons_of d c r hr] at h; cases h

theorem hasAdjPair_append_left (d : Char) (a b : List Char)
    (h : hasAdjPair d a = true) : hasAdjPair d (a ++ b) = true := by
  induction a with
  | nil => simp [hasAdjPair] at h
  | cons x xs ih =>
    cases xs with
    | nil => simp [hasAdjPair] at h
    | cons y ys =>
      rw [hasAdjPair, Bool.or_eq_true] at h
      rcases h with h | h
      · rw [List.cons_append, List.cons_append, hasAdjPair, h]
        simp
      · exact hasAdjPair_cons_of d x _ (ih h)

theorem hasAdjPair_append_right (d : Char) (a b : List Char)
    (h : hasAdjPair d b = true) : hasAdjPair d (a ++ b) = true := by
  induction a with
  | nil => simpa using h
  | cons x xs ih => exact hasAdjPair_cons_of d x _ ih

theorem hasAdjPair_take (d : Char) (l : List Char) (n : Nat)
    (h : hasAdjPair d l = false) : hasAdjPair d (l.take n) = false := by
  cases ht : hasAdjPair d (l.take n) with
  | false => rfl
  | true =>
    have := hasAdjPair_append_left d (l.take n) (l.drop n) ht
    rw [List.take_append_drop] at this
    rw [this] at h
    cases h

theorem hasAdjPair_dropWhile (d : Char) (p : Char → Bool) (l : List Char)
    (h : hasAdjPair d l = false) : hasAdjPair d (l.dropWhile p) = false := by
  cases ht : hasAdjPair d (l.dropWhile p) with
  | false => rfl
  | true =>
    have := hasAdjPair_append_right d (l.takeWhile p) (l.dropWhile p) ht
    rw [List.takeWhile_append_dropWhile] at this
    rw [this] at h
    cases h

theorem dropLastWhile_decomp (p : Char → Bool) (l : List Char) :
    ∃ b, l = dropLastWhile p l ++ b := by
  induction l with
  | nil => exact ⟨[], rfl⟩
  | cons c r ih =>
    obtain ⟨b, hb⟩ := ih
    by_cases h : dropLastWhile p r = [] ∧ p c
    · refine ⟨c :: r, ?_⟩
      rw [dropLastWhile, if_pos h]
      rfl
    · refine ⟨b, ?_⟩
      rw [dropLastWhile, if_neg h, List.cons_append, ← hb]

theorem mem_dropLastWhile (p : Char → Bool) (l : List Char) (c : Char)
    (h : c ∈ dropLastWhile p l) : c ∈ l := by
  obtain ⟨b, hb⟩ := dropLastWhile_decomp p l
  rw [hb]
  exact List.mem_append_left _ h

theorem hasAdjPair_dropLastWhile (d : Char) (p : Char → Bool) (l : List Char)
    (h : hasAdjPair d l = false) : hasAdjPair d (dropLastWhile p l) = false := by
  cases ht : hasAdjPair d (dropLastWhile p l) with
  | false => rfl
  | true =>
    obtain ⟨b, hb⟩ := dropLastWhile_decomp p l
    have := hasAdjPair_append_left d (dropLastWhile p l) b ht
    rw [← hb] at this
    rw [this] at h
    cases h

theorem dropLastWhile_length (p : Char → Bool) (l : List Char) :
    (dropLastWhile p l).length ≤ l.length := by
  obtain ⟨b, hb⟩ := dropLastWhile_decomp p l
  have := congrArg List.length hb
  simp only [List.length_append] at this
  omega

theorem dropLastWhile_head (p : Char → Bool) (c : Char) (r : List Char) :
    dropLastWhile p (c :: r) = [] ∨
      ∃ ys, dropLastWhile p (c :: r) = c :: ys := by
  by_cases h : dropLastWhile p r = [] ∧ p c
  · left
    rw [dropLastWhile, if_pos h]
  · right
    exact ⟨dropLastWhile p r, by rw [dropLastWhile, if_neg h]⟩

theorem dropLastWhile_getLast (p : Char → Bool) (l : List Char) :
    ∀ z, (dropLastWhile p l).getLast? = some z → p z = false := by
  induction l with
  | nil => intro z hz; simp [dropLastWhile] at hz
  | cons c r ih =>
    intro z hz
    by_cases h : dropLastWhile p r = [] ∧ p c
    · rw [dropLastWhile, if_pos h] at hz
      simp at hz
    · rw [dropLastWhile, if_neg h] at hz
      cases hd : dropLastWhile p r with
      | nil =>
        rw [hd] at hz
        simp only [List.getLast?_singleton, Option.some.injEq] at hz
        subst hz
        rcases Decidable.not_and_iff_or_not.mp h with h1 | h1
        · exact absurd hd h1
        · simpa using h1
      | cons y ys =>
        rw [hd] at hz
        rw [List.getLast?_cons_cons] at hz
        exact ih z (hd ▸ hz)

theorem dropLastWhile_eq_self (p : Char → Bool) (l : List Char)
    (h : ∀ z, l.getLast? = some z → p z = false) : dropLastWhile p l = l := by
  induction l with
  | nil => rfl
  | cons c r ih =>
    cases r with
    | nil =>
      have hc := h c (by simp)
      rw [dropLastWhile]
      rw [if_neg (by simp [hc])]
      rfl
    | cons y ys =>
      have hr : dropLastWhile p (y :: ys) = y :: ys :=
        ih (fun z hz => h z (by rwa [List.getLast?_cons_cons]))
      rw [dropLastWhile, if_neg (by simp [hr]), hr]

theorem dropWhile_head_false (p : Char → Bool) (l : List Char) :
    ∀ c r, l.dropWhile p = c :: r → p c = false := by
  induction l with
  | nil => intro c r h; simp at h
  | cons x xs ih =>
    intro c r h
    by_cases hx : p x
    · rw [List.dropWhile_cons, if_pos hx] at h
      exact ih c r h
    · rw [List.dropWhile_cons, if_neg hx] at h
      cases h
      simpa using hx

theorem dropWhile_eq_self_of_none (p : Char → Bool) (l : List Char)
    (h : ∀ c ∈ l, p c = false) : l.dropWhile p = l := by
  cases l with
  | nil => rfl
  | cons c r =>
    rw [List.dropWhile_cons, if_neg (by simp [h c (List.mem_cons_self _ _)])]

theorem dropLastWhile_eq_self_of_none (p : Char → Bool) (l : List Char)
    (h : ∀ c ∈ l, p c = false) : dropLastWhile p l = l := by
  induction l with
  | nil => rfl
  | cons c r ih =>
    have hr := ih (fun x hx => h x (List.mem_cons_of_mem _ hx))
    rw [dropLastWhile, if_neg (by simp [h c (List.mem_cons_self _ _)]), hr]

theorem jsTrim_eq_self_of_noWs (l : List Char)
    (h : ∀ c ∈ l, isJsWs c = false) : jsTrim l = l := by
  rw [jsTrim, trimRightWs, dropWhile_eq_self_of_none _ _ h,
    dropLastWhile_eq_self_of_none _ _ h]

theorem collapseRuns_true_head_ne (d : Char) (l : List Char) :
    ∀ c ys, collapseRuns d l true = c :: ys → c ≠ d := by
  induction l with
  | nil => intro c ys h; simp [collapseRuns] at h
  | cons x xs ih =>
    intro c ys h
    by_cases hx : x = d
    · rw [collapseRuns, if_pos hx] at h
      simp only [if_true] at h
      exact ih c ys h
    · rw [collapseRuns, if_neg hx] at h
      cases h
      exact hx

theorem collapseRuns_false_head (d : Char) (x : Char) (xs : List Char) :
    ∃ ys, collapseRuns d (x :: xs) false = x :: ys := by
  by_cases hx : x = d
  · exact ⟨collapseRuns d xs true, by rw [collapseRuns, if_pos hx]; simp⟩
  · exact ⟨collapseRuns d xs false, by rw [collapseRuns, if_neg hx]⟩

theorem collapseRuns_no_adj (d : Char) (l : List Char) :
    ∀ b, hasAdjPair d (collapseRuns d l b) = false := by
  induction l with
  | nil => intro b; simp [collapseRuns, hasAdjPair]
  | cons x xs ih =>
    intro b
    by_cases hx : x = d
    · cases b with
      | true =>
        rw [collapseRuns, if_pos hx]
        simp only [if_true]
        exact ih true
      | false =>
        rw [collapseRuns, if_pos hx]
        simp only [Bool.false_eq_true, if_false]
        cases hc : collapseRuns d xs true with
        | nil => simp [hasAdjPair]
        | cons y ys =>
          have hy : y ≠ d := collapseRuns_true_head_ne d xs y ys hc
          rw [hasAdjPair]
          have : (y == d) = false := by simp [hy]
          rw [this]
          simp only [Bool.and_false, Bool.false_or]
          rw [← hc]
          exact ih true
    · rw [collapseRuns, if_neg hx]
      cases hc : collapseRuns d xs false with
      | nil => simp [hasAdjPair]
      | cons y ys =>
        rw [hasAdjPair]
        have : (x == d) = false := by simp [hx]
        rw [this]
        simp only [Bool.false_and, Bool.false_or]
        rw [← hc]
        exact ih false

theorem collapseRuns_other_no_adj (d e : Char) (hde : d ≠ e) (l : List Char)
    (h : hasAdjPair d l = false) :
    ∀ b, hasAdjPair d (collapseRuns e l b) = false := by
  induction l with
  | nil => intro b; simp [collapseRuns, hasAdjPair]
  | cons x xs ih =>
    intro b
    have hxs : hasAdjPair d xs = false := hasAdjPair_tail d x xs h
    by_cases hx : x = e
    · cases b with
      | true =>
        rw [collapseRuns, if_pos hx]
        simp only [if_true]
        exact ih hxs true
      | false =>
        rw [collapseRuns, if_pos hx]
        simp only [Bool.false_eq_true, if_false]
        cases hc : collapseRuns e xs true with
        | nil => simp [hasAdjPair]
        | cons y ys =>
          rw [hasAdjPair]
          have hxd : (x == d) = false := by simp [hx, Ne.symm hde]
          rw [hxd]
          simp only [Bool.false_and, Bool.false_or]
          rw [← hc]
          exact ih hxs true
    · rw [collapseRuns, if_neg hx]
      cases hc : collapseRuns e xs false with
      | nil => simp [hasAdjPair]
      | cons y ys =>
        rw [hasAdjPair]
        cases xs with
        | nil => rw [collapseRuns] at hc; cases hc
        | cons x2 rest =>
          obtain ⟨ys2, hys2⟩ := collapseRuns_false_head e x2 rest
          rw [hys2] at hc
          injection hc with hy hys
          subst hy
          simp only [hasAdjPair, Bool.or_eq_false_iff] at h
          rw [Bool.or_eq_false_iff]
          refine ⟨h.1, ?_⟩
          rw [← hys, ← hys2]
          exact ih hxs false

theorem collapseRuns_self (d : Char) (l : List Char) (h : hasAdjPair d l = false) :
    collapseRuns d l false = l ∧
      ((∀ ys, l ≠ d :: ys) → collapseRuns d l true = l) := by
  induction l with
  | nil => exact ⟨rfl, fun _ => rfl⟩
  | cons c r ih =>
    have hr : hasAdjPair d r = false := hasAdjPair_tail d c r h
    obtain ⟨ihf, iht⟩ := ih hr
    constructor
    · by_cases hc : c = d
      · subst hc
        rw [collapseRuns, if_pos rfl]
        simp only [Bool.false_eq_true, if_false]
        congr 1
        apply iht
        intro ys hys
        subst hys
        rw [hasAdjPair] at h
        simp at h
      · rw [collapseRuns, if_neg hc, ihf]
    · intro hhead
      by_cases hc : c = d
      · exact absurd (by rw [hc]) (hhead r)
      · rw [collapseRuns, if_neg hc, ihf]

/-- Structural facts about the sanitizer output: no whitespace, no
forbidden specials, no underscores, ASCII-lower-case stable, no adjacent
dots or slashes, no leading `-`/`.`/`/`, and length at most 250 and at
most the input length. -/
theorem sanitize_facts (s : List Char) :
    (∀ c ∈ sanitizeBranchName s, isJsWs c = false) ∧
    (∀ c ∈ sanitizeBranchName s, isSpecialCh c = false) ∧
    (∀ c ∈ sanitizeBranchName s, (c == '_') = false) ∧
    (∀ c ∈ sanitizeBranchName s, lowerAscii c = c) ∧
    hasAdjPair '.' (sanitizeBranchName s) = false ∧
    hasAdjPair '/' (sanitizeBranchName s) = false ∧
    (∀ c ys, sanitizeBranchName s = c :: ys → isEdgeCh c = false) ∧
    (sanitizeBranchName s).length ≤ 250 ∧
    (sanitizeBranchName s).length ≤ s.length ∧
    (s.length ≤ 250 → ∀ z, (sanitizeBranchName s).getLast? = some z →
      isEdgeCh z = false) := by
  have hdef : sanitizeBranchName s =
      (dropLastWhile isEdgeCh
        ((collapseRuns '/' (collapseRuns '.'
          ((dashRuns (fun c => c == '_')
            (dashRuns isJsWs ((jsTrim s).map lowerAscii) false) false).filter
            (fun c => !isSpecialCh c)) false) false).dropWhile isEdgeCh)).take 250 := rfl
  rw [hdef]
  set l1 := (jsTrim s).map lowerAscii with hl1
  set l2 := dashRuns isJsWs l1 false with hl2
  set l3 := dashRuns (fun c => c == '_') l2 false with hl3
  set l4 := l3.filter (fun c => !isSpecialCh c) with hl4
  set l5 := collapseRuns '.' l4 false with hl5
  set l6 := collapseRuns '/' l5 false with hl6
  set l7 := l6.dropWhile isEdgeCh with hl7
  set l8 := dropLastWhile isEdgeCh l7 with hl8
  have m1low : ∀ c ∈ l1, lowerAscii c = c := by
    intro c hc
    obtain ⟨y, _, rfl⟩ := List.mem_map.mp hc
    exact lowerAscii_idem y
  have m2ws : ∀ c ∈ l2, isJsWs c = false :=
    fun c hc => dashRuns_not_p isJsWs (by decide) l1 false c hc
  have m2low : ∀ c ∈ l2, lowerAscii c = c := by
    intro c hc
    rcases dashRuns_mem isJsWs l1 false c hc with h | h
    · exact m1low c h
    · rw [h]; decide
  have m3us : ∀ c ∈ l3, (c == '_') = false :=
    fun c hc => dashRuns_not_p _ (by decide) l2 false c hc
  have m3of : ∀ c ∈ l3, c ∈ l2 ∨ c = '-' := fun c hc => dashRuns_mem _ l2 false c hc
  have m3ws : ∀ c ∈ l3, isJsWs c = false := by
    intro c hc
    rcases m3of c hc with h | h
    · exact m2ws c h
    · rw [h]; decide
  have m3low : ∀ c ∈ l3, lowerAscii c = c := by
    intro c hc
    rcases m3of c hc with h | h
    · exact m2low c h
    · rw [h]; decide
  have m4of : ∀ c ∈ l4, c ∈ l3 := fun c hc => List.mem_of_mem_filter hc
  have m4sp : ∀ c ∈ l4, isSpecialCh c = false := by
    intro c hc
    have := List.of_mem_filter hc
    simpa using this
  have m5of : ∀ c ∈ l5, c ∈ l4 := fun c hc => collapseRuns_mem '.' l4 false c hc
  have m6of : ∀ c ∈ l6, c ∈ l5 := fun c hc => collapseRuns_mem '/' l5 false c hc
  have m6adjDot : hasAdjPair '.' l6 = false :=
    collapseRuns_other_no_adj '.' '/' (by decide) l5 (collapseRuns_no_adj '.' l4 false) false
  have m6adjSlash : hasAdjPair '/' l6 = false := collapseRuns_no_adj '/' l5 false
  have m7of : ∀ c ∈ l7, c ∈ l6 := by
    intro c hc
    rw [← List.takeWhile_append_dropWhile (p := isEdgeCh) (l := l6)]
    exact List.mem_append_right _ hc
  have m8of : ∀ c ∈ l8, c ∈ l7 := fun c hc => mem_dropLastWhile isEdgeCh l7 c hc
  have m9of : ∀ c ∈ l8.take 250, c ∈ l8 := fun c hc => List.take_subset 250 l8 hc
  have mall : ∀ c ∈ l8.take 250, c ∈ l6 :=
    fun c hc => m7of c (m8of c (m9of c hc))
  have e0 : (jsTrim s).length ≤ s.length := by
    rw [jsTrim, trimRightWs]
    calc (dropLastWhile isJsWs (s.dropWhile isJsWs)).length
        ≤ (s.dropWhile isJsWs).length := dropLastWhile_length _ _
      _ ≤ s.length := length_dropWhile_le _ _
  have e1 : l1.length = (jsTrim s).length := by
    rw [hl1]; exact List.length_map _ _
  have e2 : l2.length ≤ l1.length := by
    rw [hl2]; exact dashRuns_length isJsWs l1 false
  have e3 : l3.length ≤ l2.length := by
    rw [hl3]; exact dashRuns_length (fun c => c == '_') l2 false
  have e4 : l4.length ≤ l3.length := by
    rw [hl4]; exact List.length_filter_le (fun c => !isSpecialCh c) l3
  have e5 : l5.length ≤ l4.length := by
    rw [hl5]; exact collapseRuns_length '.' l4 false
  have e6 : l6.length ≤ l5.length := by
    rw [hl6]; exact collapseRuns_length '/' l5 false
  have e7 : l7.length ≤ l6.length := by
    rw [hl7]; exact length_dropWhile_le isEdgeCh l6
  have e8 : l8.length ≤ l7.length := by
    rw [hl8]; exact dropLastWhile_length isEdgeCh l7
  have e9 : (l8.take 250).length ≤ l8.length := by
    rw [List.length_take]
    exact Nat.min_le_right _ _
  refine ⟨?_, ?_, ?_, ?_, ?_, ?_, ?_, ?_, ?_, ?_⟩
  · exact fun c hc => m3ws c (m4of c (m5of c (m6of c (mall c hc))))
  · exact fun c hc => m4sp c (m5of c (m6of c (mall c hc)))
  · exact fun c hc => m3us c (m4of c (m5of c (m6of c (mall c hc))))
  · exact fun c hc => m3low c (m4of c (m5of c (m6of c (mall c hc))))
  · exact hasAdjPair_take _ _ _ (hasAdjPair_dropLastWhile _ _ _
      (hasAdjPair_dropWhile _ _ _ m6adjDot))
  · exact hasAdjPair_take _ _ _ (hasAdjPair_dropLastWhile _ _ _
      (hasAdjPair_dropWhile _ _ _ m6adjSlash))
  · intro c ys h
    cases h7 : l7 with
    | nil =>
      rw [hl8, h7] at h
      simp [dropLastWhile] at h
    | cons c0 r0 =>
      rcases dropLastWhile_head isEdgeCh c0 r0 with h8 | ⟨ys2, h8⟩
      · rw [hl8, h7, h8] at h
        cases h
      · rw [hl8, h7, h8] at h
        have h82 : (c0 :: ys2).take 250 = c0 :: ys2.take 249 := rfl
        rw [h82] at h
        injection h with hceq
        rw [← hceq]
        exact dropWhile_head_false isEdgeCh l6 c0 r0 h7
  · exact List.length_take_le 250 l8
  · omega
  · intro h250 z hz
    have hl8len : l8.length ≤ 250 := by omega
    have hteq : l8.take 250 = l8 := List.take_of_length_le hl8len
    rw [hteq, hl8] at hz
    exact dropLastWhile_getLast isEdgeCh l7 z hz

set_option maxHeartbeats 2000000 in
theorem validateBranchName_first_error (name : List Char)
    (options : BranchValidationOptions) :
    (validateBranchName name options).error = firstBranchError name options ∧
    (validateBranchName name options).valid = (firstBranchError name options).isNone ∧
    ((validateBranchName name options).warnings.isSome = true →
      firstBranchError name options = none) := by
  simp only [validateBranchName, firstBranchError, branchChecks]
  by_cases h1 : jsTrim name = []
  case pos =>
    rw [if_pos h1, decide_eq_true h1]
    exact ⟨rfl, rfl, fun h => nomatch h⟩
  rw [if_neg h1, decide_eq_false h1]
  by_cases h2 : (mergeBranchOptions options).maxLength ≠ 0 ∧ (mergeBranchOptions options).maxLength < (jsTrim name).length
  case pos =>
    rw [if_pos h2, decide_eq_true h2]
    exact ⟨rfl, rfl, fun h => nomatch h⟩
  rw [if_neg h2, decide_eq_false h2]
  by_cases h3 : (mergeBranchOptions options).reservedNames.contains (List.map upperAscii (jsTrim name)) = true
  case pos =>
    rw [if_pos h3, h3]
    exact ⟨rfl, rfl, fun h => nomatch h⟩
  rw [if_neg h3, show (mergeBranchOptions options).reservedNames.contains (List.map upperAscii (jsTrim name)) = false by simpa using h3]
  by_cases h4 : startsList ['.'] (jsTrim name) = true
  case pos =>
    rw [if_pos h4, h4]
    exact ⟨rfl, rfl, fun h => nomatch h⟩
  rw [if_neg h4, show startsList ['.'] (jsTrim name) = false by simpa using h4]
  by_cases h5 : endsList ['.'] (jsTrim name) = true
  case pos =>
    rw [if_pos h5, h5]
    exact ⟨rfl, rfl, fun h => nomatch h⟩
  rw [if_neg h5, show endsList ['.'] (jsTrim name) = false by simpa using h5]
  by_cases h6 : endsList ".lock".data (jsTrim name) = true
  case pos =>
    rw [if_pos h6, h6]
    exact ⟨rfl, rfl, fun h => nomatch h⟩
  rw [if_neg h6, show endsList ".lock".data (jsTrim name) = false by simpa using h6]
  by_cases h7 : hasAdjPair '.' (jsTrim name) = true
  case pos =>
    rw [if_pos h7, h7]
    exact ⟨rfl, rfl, fun h => nomatch h⟩
  rw [if_neg h7, show hasAdjPair '.' (jsTrim name) = false by simpa using h7]
  by_cases h8 : startsList ['-'] (jsTrim name) = true
  case pos =>
    rw [if_pos h8, h8]
    exact ⟨rfl, rfl, fun h => nomatch h⟩
  rw [if_neg h8, show startsList ['-'] (jsTrim name) = false by simpa using h8]
  by_cases h9 : endsList ['/'] (jsTrim name) = true
  case pos =>
    rw [if_pos h9, h9]
    exact ⟨rfl, rfl, fun h => nomatch h⟩
  rw [if_neg h9, show endsList ['/'] (jsTrim name) = false by simpa using h9]
  by_cases h10 : hasAdjPair '/' (jsTrim name) = true
  case pos =>
    rw [if_pos h10, h10]
    exact ⟨rfl, rfl, fun h => nomatch h⟩
  rw [if_neg h10, show hasAdjPair '/' (jsTrim name) = false by simpa using h10]
  by_cases h11 : (jsTrim name).any isJsWs = true
  case pos =>
    rw [if_pos h11, h11]
    exact ⟨rfl, rfl, fun h => nomatch h⟩
  rw [if_neg h11, show (jsTrim name).any isJsWs = false by simpa using h11]
  by_cases h12 : (jsTrim name).any isControlCh = true
  case pos =>
    rw [if_pos h12, h12]
    exact ⟨rfl, rfl, fun h => nomatch h⟩
  rw [if_neg h12, show (jsTrim name).any isControlCh = false by simpa using h12]
  by_cases h13 : (jsTrim name).any isSpecialCh = true
  case pos =>
    rw [if_pos h13, h13]
    exact ⟨rfl, rfl, fun h => nomatch h⟩
  rw [if_neg h13, show (jsTrim name).any isSpecialCh = false by simpa using h13]
  by_cases h14 : (!(mergeBranchOptions options).allowSlash && (jsTrim name).contains '/') = true
  case pos =>
    rw [if_pos h14, h14]
    exact ⟨rfl, rfl, fun h => nomatch h⟩
  rw [if_neg h14, show (!(mergeBranchOptions options).allowSlash && (jsTrim name).contains '/') = false by simpa using h14]
  by_cases h15 : enforcedPrefixFail (mergeBranchOptions options) (jsTrim name) = true
  case pos =>
    rw [if_pos h15, h15]
    exact ⟨rfl, rfl, fun h => nomatch h⟩
  rw [if_neg h15, show enforcedPrefixFail (mergeBranchOptions options) (jsTrim name) = false by simpa using h15]
  by_cases h16 : patternFail (mergeBranchOptions options) (jsTrim name) = true
  case pos =>
    rw [if_pos h16, h16]
    exact ⟨rfl, rfl, fun h => nomatch h⟩
  rw [if_neg h16, show patternFail (mergeBranchOptions options) (jsTrim name) = false by simpa using h16]
  exact ⟨rfl, rfl, fun _ => rfl⟩

/-! ## Claim C5 -/

/-- C5: `validateBranchName` checks its rules in the spec's fixed order,
short-circuiting at the first failure: its `error` is exactly the message
of the earliest-checked violated rule in `branchChecks` (the spec §4.1
rule list), it is valid exactly when no rule fires, and in particular
`"-feature "` reports only the leading-dash message. -/
theorem c5_rule_order (name : List Char) (options : BranchValidationOptions) :
    ((validateBranchName name options).error = firstBranchError name options ∧
     (validateBranchName name options).valid = (firstBranchError name options).isNone) ∧
    (validateBranchName "-feature ".data {}).error =
      some "Branch name cannot start with a dash" := by
  refine ⟨⟨(validateBranchName_first_error name options).1,
    (validateBranchName_first_error name options).2.1⟩, ?_⟩
  decide

/-! ## Claim C10 -/

/-- C10: `validateBranchName` gives the same result on `s` and on the
whitespace-trimmed `s`, for every options value: leading and trailing
whitespace never by itself causes rejection, and every check (including
the `maxLength` check) is evaluated on the trimmed name. -/
theorem c10_validateBranchName_trim (name : List Char)
    (options : BranchValidationOptions) :
    validateBranchName name options = validateBranchName (jsTrim name) options := by
  simp only [validateBranchName, jsTrim_idem]

/-! ## Claim C7 -/

/-- C7 counterexample: `sanitizeBranchName("fix: bug #123")` is not
`"fix-bug-123"`, because `#` is not in the stripped character set. -/
theorem c7_counterexample :
    sanitizeBranchName "fix: bug #123".data ≠ "fix-bug-123".data := by decide

/-- C7 amended: `sanitizeBranchName("Feature Name")` returns
`"feature-name"`, and `sanitizeBranchName("fix: bug #123")` returns
`"fix-bug-#123"` (`#` is not one of the characters the sanitizer strips,
so it survives). -/
theorem c7_amended :
    sanitizeBranchName "Feature Name".data = "feature-name".data ∧
    sanitizeBranchName "fix: bug #123".data = "fix-bug-#123".data := by decide

/-! ## Claim C6 -/

/-- C6: on the failing input, the line `BREAKING CHANGE: removes old api`
at index 2 is classified as body, not footer: the regex `^[\w-]+:\s`
cannot match it because the token contains a space, contradicting the
code's own comment that the footer starts with a token like
`BREAKING CHANGE:`. -/
theorem c6_breaking_change_is_body :
    parseConventionalCommit "feat: add api\n\nBREAKING CHANGE: removes old api".data =
      some ⟨"feat".data, none, false, "add api".data,
        some "BREAKING CHANGE: removes old api".data, none⟩ := by decide

/-! ## Claim C1 (counterexample) -/

/-- C1 counterexample: `sanitizeBranchName("a.lock")` is the non-empty
string `"a.lock"`, which `validateBranchName` with default options
rejects (`.lock` suffix). -/
theorem c1_counterexample :
    sanitizeBranchName "a.lock".data ≠ [] ∧
    (validateBranchName (sanitizeBranchName "a.lock".data) {}).valid = false := by decide

theorem startsList_single_false (d c : Char) (ys : List Char)
    (h : (c == d) = false) : startsList [d] (c :: ys) = false := by
  rw [startsList]
  have h1 : ([d] : List Char).length = 1 := rfl
  rw [h1]
  have h2 : (c :: ys).take 1 = [c] := rfl
  rw [h2]
  simpa using h

/-- C1 amended: if the sanitizer's output is non-empty, contains no
control characters, is not (after upper-casing) a reserved name, and does
not end with `.`, `/` or `.lock` (which truncation or a `.lock`-ending
input can produce), then it passes `validateBranchName` with default
options. -/
theorem c1_amended (s : List Char)
    (h1 : sanitizeBranchName s ≠ [])
    (h2 : ∀ c ∈ sanitizeBranchName s, isControlCh c = false)
    (h3 : ¬ (sanitizeBranchName s).map upperAscii ∈ defaultReservedNames)
    (h4 : endsList ['.'] (sanitizeBranchName s) = false)
    (h5 : endsList ['/'] (sanitizeBranchName s) = false)
    (h6 : endsList ".lock".data (sanitizeBranchName s) = false) :
    (validateBranchName (sanitizeBranchName s) {}).valid = true := by
  obtain ⟨fws, fsp, _, _, fadjD, fadjS, fhead, flen, _⟩ := sanitize_facts s
  set o := sanitizeBranchName s with ho
  have htr : jsTrim o = o := jsTrim_eq_self_of_noWs o fws
  have b1 : decide (o = []) = false := by simp [h1]
  have b2 : decide ((mergeBranchOptions {}).maxLength ≠ 0 ∧
      (mergeBranchOptions {}).maxLength < o.length) = false := by
    have hm : (mergeBranchOptions {}).maxLength = 250 := rfl
    rw [hm]
    simp only [decide_eq_false_iff_not]
    rintro ⟨_, hlt⟩
    omega
  have b3 : (mergeBranchOptions {}).reservedNames.contains (o.map upperAscii) = false := by
    have hm : (mergeBranchOptions {}).reservedNames = defaultReservedNames := rfl
    rw [hm]
    simpa using h3
  obtain ⟨c0, ys0, ho2⟩ : ∃ c0 ys0, o = c0 :: ys0 := by
    cases hc : o with
    | nil => exact absurd hc h1
    | cons a b => exact ⟨a, b, rfl⟩
  have hedge : isEdgeCh c0 = false := fhead c0 ys0 ho2
  have hedge3 : (c0 == '-') = false ∧ (c0 == '.') = false ∧ (c0 == '/') = false := by
    rw [isEdgeCh, Bool.or_eq_false_iff, Bool.or_eq_false_iff] at hedge
    exact ⟨hedge.1.1, hedge.1.2, hedge.2⟩
  have b4 : startsList ['.'] o = false := by
    rw [ho2]
    exact startsList_single_false '.' c0 ys0 hedge3.2.1
  have b8 : startsList ['-'] o = false := by
    rw [ho2]
    exact startsList_single_false '-' c0 ys0 hedge3.1
  have b11 : o.any isJsWs = false := by
    simp only [List.any_eq_false]
    intro c hc
    simp [fws c hc]
  have b12 : o.any isControlCh = false := by
    simp only [List.any_eq_false]
    intro c hc
    simp [h2 c hc]
  have b13 : o.any isSpecialCh = false := by
    simp only [List.any_eq_false]
    intro c hc
    simp [fsp c hc]
  have b14 : (!(mergeBranchOptions {}).allowSlash && o.contains '/') = false := rfl
  have b15 : enforcedPrefixFail (mergeBranchOptions {}) o = false := rfl
  have b16 : patternFail (mergeBranchOptions {}) o = false := rfl
  have hfbe : firstBranchError o {} = none := by
    simp only [firstBranchError, branchChecks]
    rw [htr, b1, b2, b3, b4, h4, h6, fadjD, b8, h5, fadjS, b11, b12, b13, b14, b15, b16]
    rfl
  rw [(validateBranchName_first_error o {}).2.1, hfbe]
  rfl

/-- C1 amended witness at the concrete input `"My Branch"`, whose
sanitized form `"my-branch"` meets every hypothesis. -/
theorem c1_amended_witness :
    sanitizeBranchName "My Branch".data ≠ [] ∧
    (validateBranchName (sanitizeBranchName "My Branch".data) {}).valid = true :=
  ⟨by decide, c1_amended "My Branch".data (by decide) (by decide) (by decide)
    (by decide) (by decide) (by decide)⟩

/-! ## Claim C4 (counterexample) -/

set_option maxRecDepth 40000 in
/-- C4 counterexample: on an input of 251 characters whose 250th
character is a dot, truncation re-exposes a trailing dot that a second
sanitization pass strips, so the pipeline is not idempotent. -/
theorem c4_counterexample :
    sanitizeBranchName (sanitizeBranchName (List.replicate 249 'a' ++ ['.', 'b'])) ≠
      sanitizeBranchName (List.replicate 249 'a' ++ ['.', 'b']) := by decide

theorem map_eq_self_of_fixed (f : Char → Char) (l : List Char)
    (h : ∀ c ∈ l, f c = c) : l.map f = l := by
  induction l with
  | nil => rfl
  | cons c r ih =>
    rw [List.map_cons, h c (List.mem_cons_self _ _),
      ih (fun x hx => h x (List.mem_cons_of_mem _ hx))]

theorem dropWhile_eq_self_of_head (p : Char → Bool) (l : List Char)
    (h : ∀ c ys, l = c :: ys → p c = false) : l.dropWhile p = l := by
  cases l with
  | nil => rfl
  | cons c r =>
    rw [List.dropWhile_cons, if_neg (by simp [h c r rfl])]

/-- C4 amended: the sanitizer is idempotent on every ASCII input of at
most 250 characters; track the spec's pipeline a second time and each
stage is the identity on the first pass's output. The ASCII restriction
keeps the input inside the domain where `lowerAscii` coincides with the
full Unicode `toLowerCase`: outside it, U+0130 lower-cases to the two
code units `i` U+0307, the string can grow past 250 units, and the final
truncation can re-expose a trailing separator exactly as in the 251-unit
counterexample. -/
theorem c4_amended (s : List Char) (h : s.length ≤ 250)
    (_hascii : ∀ c ∈ s, c.toNat < 128) :
    sanitizeBranchName (sanitizeBranchName s) = sanitizeBranchName s := by
  obtain ⟨fws, fsp, fus, flow, fadjD, fadjS, fhead, flen250, flenS, flast⟩ :=
    sanitize_facts s
  set o := sanitizeBranchName s with ho
  have e0 : jsTrim o = o := jsTrim_eq_self_of_noWs o fws
  have e1 : o.map lowerAscii = o := map_eq_self_of_fixed _ _ flow
  have e2 : dashRuns isJsWs o false = o := dashRuns_eq_self _ _ fws
  have e3 : dashRuns (fun c => c == '_') o false = o := dashRuns_eq_self _ _ fus
  have e4 : o.filter (fun c => !isSpecialCh c) = o :=
    List.filter_eq_self.mpr (fun a ha => by simp [fsp a ha])
  have e5 : collapseRuns '.' o false = o := (collapseRuns_self '.' o fadjD).1
  have e6 : collapseRuns '/' o false = o := (collapseRuns_self '/' o fadjS).1
  have e7 : o.dropWhile isEdgeCh = o := dropWhile_eq_self_of_head _ _ fhead
  have e8 : dropLastWhile isEdgeCh o = o :=
    dropLastWhile_eq_self _ _ (flast h)
  have e9 : o.take 250 = o := List.take_of_length_le flen250
  have hdef2 : sanitizeBranchName o =
      (dropLastWhile isEdgeCh
        ((collapseRuns '/' (collapseRuns '.'
          ((dashRuns (fun c => c == '_')
            (dashRuns isJsWs ((jsTrim o).map lowerAscii) false) false).filter
            (fun c => !isSpecialCh c)) false) false).dropWhile isEdgeCh)).take 250 := rfl
  rw [hdef2, e0, e1, e2, e3, e4, e5, e6, e7, e8, e9]

/-- C4 amended witness at the concrete ASCII input `"Feature Name"`
(length 12 ≤ 250). -/
theorem c4_amended_witness :
    ("Feature Name".data).length ≤ 250 ∧
    (∀ c ∈ "Feature Name".data, c.toNat < 128) ∧
    sanitizeBranchName (sanitizeBranchName "Feature Name".data) =
      sanitizeBranchName "Feature Name".data :=
  ⟨by decide, by decide, c4_amended "Feature Name".data (by decide) (by decide)⟩

/-! ## Claim C2 -/

/-- C2 counterexample: `validateRemoteUrl("x")` returns an error together
with suggestions, so suggestions do appear in results whose error is set. -/
theorem c2_counterexample :
    (validateRemoteUrl "x".data).error.isSome = true ∧
    (validateRemoteUrl "x".data).suggestions.isSome = true := by decide

set_option maxHeartbeats 2000000 in
/-- C2 amended: for every validation operation and every input, `error`
is present iff `valid` is false, and `warnings` are never present when
`error` is set; `suggestions`, however, may accompany an error. -/
theorem c2_amended :
    (∀ name options, errorInvariant (validateBranchName name options)) ∧
    (∀ message options, errorInvariant (validateCommitMessage message options)) ∧
    (∀ name, errorInvariant (validateTagName name)) ∧
    (∀ name, errorInvariant (validateRemoteName name)) ∧
    (∀ url, errorInvariant (validateRemoteUrl url)) ∧
    (∀ message, errorInvariant (validateStashMessage message)) ∧
    (∀ fp, errorInvariant (validateFilePath fp)) := by
  refine ⟨?_, ?_, ?_, ?_, ?_, ?_, ?_⟩
  · intro name options
    obtain ⟨he, hv, hw⟩ := validateBranchName_first_error name options
    constructor
    · rw [he, hv]
      cases firstBranchError name options <;> rfl
    · cases hfb : firstBranchError name options with
      | none => rw [he, hfb]; rfl
      | some e =>
        have hws : (validateBranchName name options).warnings.isSome = false := by
          cases hwe : (validateBranchName name options).warnings.isSome
          · rfl
          · rw [hw hwe] at hfb
            cases hfb
        rw [he, hfb, hws]
        rfl
  · intro message options
    simp only [errorInvariant, validateCommitMessage]
    repeat' split
    all_goals exact ⟨rfl, rfl⟩
  · intro name
    simp only [errorInvariant, validateTagName]
    repeat' split
    all_goals exact ⟨rfl, rfl⟩
  · intro name
    simp only [errorInvariant, validateRemoteName]
    repeat' split
    all_goals exact ⟨rfl, rfl⟩
  · intro url
    simp only [errorInvariant, validateRemoteUrl]
    repeat' split
    all_goals exact ⟨rfl, rfl⟩
  · intro message
    simp only [errorInvariant, validateStashMessage]
    repeat' split
    all_goals exact ⟨rfl, rfl⟩
  · intro fp
    simp only [errorInvariant, validateFilePath]
    repeat' split
    all_goals exact ⟨rfl, rfl⟩

/-! ## Claim C8: remote URL shapes -/

theorem startsList_iff (p l : List Char) :
    startsList p l = true ↔ ∃ m, l = p ++ m := by
  unfold startsList
  constructor
  · intro h
    have h2 : l.take p.length = p := by simpa using h
    refine ⟨l.drop p.length, ?_⟩
    conv_lhs => rw [← List.take_append_drop p.length l]
    rw [h2]
  · rintro ⟨m, rfl⟩
    simp [List.take_left]

theorem startsList_drop_iff (p l : List Char) (Q : List Char → Prop) :
    (startsList p l = true ∧ Q (l.drop p.length)) ↔ ∃ m, l = p ++ m ∧ Q m := by
  constructor
  · rintro ⟨h1, h2⟩
    obtain ⟨m, rfl⟩ := (startsList_iff p l).mp h1
    rw [List.drop_left] at h2
    exact ⟨m, rfl, h2⟩
  · rintro ⟨m, rfl, h2⟩
    refine ⟨(startsList_iff p _).mpr ⟨m, rfl⟩, ?_⟩
    rwa [List.drop_left]

theorem noWsList_iff_all (m : List Char) :
    (m.all fun c => !isJsWs c) = true ↔ noWsList m := by
  simp [noWsList, List.all_eq_true]

theorem midGitTail_iff (r : List Char) :
    midGitTail r = true ↔ ∃ m, r = m ++ ".git".data ∧ m ≠ [] ∧ noWsList m := by
  unfold midGitTail
  constructor
  · intro h
    simp only [Bool.and_eq_true, decide_eq_true_eq, beq_iff_eq] at h
    obtain ⟨⟨h5, hdrop⟩, hall⟩ := h
    refine ⟨r.take (r.length - 4), ?_, ?_, (noWsList_iff_all _).mp hall⟩
    · conv_lhs => rw [← List.take_append_drop (r.length - 4) r]
      rw [hdrop]
    · intro hemp
      have hlen := congrArg List.length hemp
      simp [List.length_take] at hlen
      omega
  · rintro ⟨m, rfl, hne, hws⟩
    have hpos : 0 < m.length := List.length_pos.mpr hne
    have hlen : (m ++ ".git".data).length = m.length + 4 := by simp
    have hsub : (m ++ ".git".data).length - 4 = m.length := by omega
    simp only [Bool.and_eq_true, decide_eq_true_eq, beq_iff_eq]
    refine ⟨⟨by simp [List.length_append]; omega, ?_⟩, ?_⟩
    · rw [hsub, List.drop_left]
    · rw [hsub, List.take_left]
      exact (noWsList_iff_all _).mpr hws

theorem drop_length_takeWhile (p : Char → Bool) (l : List Char) :
    l.drop (l.takeWhile p).length = l.dropWhile p := by
  induction l with
  | nil => rfl
  | cons c r ih =>
    by_cases h : p c
    · simp [List.takeWhile_cons, List.dropWhile_cons, h, ih]
    · simp [List.takeWhile_cons, List.dropWhile_cons, h]

theorem takeWhile_append_stop (q : Char → Bool) (a : List Char) (c : Char)
    (r : List Char) (ha : ∀ x ∈ a, q x = true) (hc : q c = false) :
    (a ++ c :: r).takeWhile q = a := by
  induction a with
  | nil => simp [List.takeWhile_cons, hc]
  | cons x xs ih =>
    have hx : q x = true := ha x (by simp)
    simp [List.takeWhile_cons, hx,
      ih (fun y hy => ha y (List.mem_cons_of_mem _ hy))]

theorem httpsUrlTest_iff (t : List Char) : httpsUrlTest t = true ↔ HttpsShape t := by
  unfold httpsUrlTest HttpsShape
  by_cases h1 : startsList "https://".data (t.map lowerAscii) = true
  · rw [if_pos h1]
    constructor
    · intro h
      obtain ⟨m0, hm, hq⟩ := (startsList_drop_iff "https://".data (t.map lowerAscii)
        (fun x => midGitTail x = true)).mp ⟨h1, h⟩
      obtain ⟨m, rfl, hne, hws⟩ := (midGitTail_iff m0).mp hq
      exact ⟨"https://".data, m, Or.inl rfl, hm, hne, hws⟩
    · rintro ⟨pre, m, hpre | hpre, heq, hne, hws⟩ <;> subst hpre
      · exact ((startsList_drop_iff "https://".data (t.map lowerAscii)
          (fun x => midGitTail x = true)).mpr
          ⟨m ++ ".git".data, heq, (midGitTail_iff _).mpr ⟨m, rfl, hne, hws⟩⟩).2
      · rw [heq] at h1
        exact Bool.noConfusion (show false = true from h1)
  · rw [if_neg h1]
    by_cases h2 : startsList "http://".data (t.map lowerAscii) = true
    · rw [if_pos h2]
      constructor
      · intro h
        obtain ⟨m0, hm, hq⟩ := (startsList_drop_iff "http://".data (t.map lowerAscii)
          (fun x => midGitTail x = true)).mp ⟨h2, h⟩
        obtain ⟨m, rfl, hne, hws⟩ := (midGitTail_iff m0).mp hq
        exact ⟨"http://".data, m, Or.inr rfl, hm, hne, hws⟩
      · rintro ⟨pre, m, hpre | hpre, heq, hne, hws⟩ <;> subst hpre
        · exact absurd ((startsList_iff _ _).mpr ⟨m ++ ".git".data, heq⟩) h1
        · exact ((startsList_drop_iff "http://".data (t.map lowerAscii)
            (fun x => midGitTail x = true)).mpr
            ⟨m ++ ".git".data, heq, (midGitTail_iff _).mpr ⟨m, rfl, hne, hws⟩⟩).2
    · rw [if_neg h2]
      constructor
      · intro h
        exact Bool.noConfusion h
      · rintro ⟨pre, m, hpre | hpre, heq, hne, hws⟩ <;> subst hpre
        · exact absurd ((startsList_iff _ _).mpr ⟨m ++ ".git".data, heq⟩) h1
        · exact absurd ((startsList_iff _ _).mpr ⟨m ++ ".git".data, heq⟩) h2

theorem sshUrlTest_iff (t : List Char) : sshUrlTest t = true ↔ SshUrlShape t := by
  unfold sshUrlTest SshUrlShape
  rw [Bool.and_eq_true]
  constructor
  · rintro ⟨h1, h2⟩
    obtain ⟨m0, hm, hq⟩ := (startsList_drop_iff "ssh://".data (t.map lowerAscii)
      (fun x => midGitTail x = true)).mp ⟨h1, h2⟩
    obtain ⟨m, rfl, hne, hws⟩ := (midGitTail_iff m0).mp hq
    exact ⟨m, hm, hne, hws⟩
  · rintro ⟨m, heq, hne, hws⟩
    exact (startsList_drop_iff "ssh://".data (t.map lowerAscii)
      (fun x => midGitTail x = true)).mpr
      ⟨m ++ ".git".data, heq, (midGitTail_iff _).mpr ⟨m, rfl, hne, hws⟩⟩

theorem gitUrlTest_iff (t : List Char) : gitUrlTest t = true ↔ GitUrlShape t := by
  unfold gitUrlTest GitUrlShape
  rw [Bool.and_eq_true]
  constructor
  · rintro ⟨h1, h2⟩
    obtain ⟨m0, hm, hq⟩ := (startsList_drop_iff "git://".data (t.map lowerAscii)
      (fun x => midGitTail x = true)).mp ⟨h1, h2⟩
    obtain ⟨m, rfl, hne, hws⟩ := (midGitTail_iff m0).mp hq
    exact ⟨m, hm, hne, hws⟩
  · rintro ⟨m, heq, hne, hws⟩
    exact (startsList_drop_iff "git://".data (t.map lowerAscii)
      (fun x => midGitTail x = true)).mpr
      ⟨m ++ ".git".data, heq, (midGitTail_iff _).mpr ⟨m, rfl, hne, hws⟩⟩

theorem fileUrlTest_iff (t : List Char) : fileUrlTest t = true ↔ FileShape t := by
  unfold fileUrlTest FileShape
  by_cases h1 : startsList "file://".data t = true
  · rw [if_pos h1]
    obtain ⟨m0, rfl⟩ := (startsList_iff _ _).mp h1
    have hd : ("file://".data ++ m0).drop 7 = m0 := List.drop_left "file://".data m0
    rw [hd]
    constructor
    · intro h
      simp only [Bool.and_eq_true] at h
      obtain ⟨⟨hs, hne⟩, hall⟩ := h
      obtain ⟨m1, rfl⟩ := (startsList_iff ['/'] m0).mp hs
      refine ⟨m1, Or.inl rfl, by simpa using hne, (noWsList_iff_all m1).mp hall⟩
    · rintro ⟨m, hd2 | hd2, hne, hws⟩
      · have hm : m0 = '/' :: m := List.append_cancel_left hd2
        subst hm
        simp only [Bool.and_eq_true]
        refine ⟨⟨rfl, ?_⟩, (noWsList_iff_all m).mpr hws⟩
        cases m with
        | nil => exact absurd rfl hne
        | cons a r => rfl
      · simp at hd2
  · rw [if_neg h1]
    constructor
    · intro h
      simp only [Bool.and_eq_true] at h
      obtain ⟨⟨hs, hne⟩, hall⟩ := h
      obtain ⟨m1, rfl⟩ := (startsList_iff ['/'] t).mp hs
      exact ⟨m1, Or.inr rfl, by simpa using hne, (noWsList_iff_all m1).mp hall⟩
    · rintro ⟨m, hd2 | hd2, hne, hws⟩
      · exact absurd ((startsList_iff _ _).mpr ⟨'/' :: m, hd2⟩) h1
      · subst hd2
        simp only [Bool.and_eq_true]
        refine ⟨⟨rfl, ?_⟩, (noWsList_iff_all m).mpr hws⟩
        cases m with
        | nil => exact absurd rfl hne
        | cons a r => rfl

theorem sshScpUrlTest_iff (t : List Char) : sshScpUrlTest t = true ↔ SshScpShape t := by
  unfold sshScpUrlTest SshScpShape
  by_cases h1 : startsList "git@".data (t.map lowerAscii) = true
  · rw [if_pos h1]
    obtain ⟨r, hr⟩ := (startsList_iff _ _).mp h1
    have hd : (t.map lowerAscii).drop 4 = r := by
      rw [hr]
      exact List.drop_left "git@".data r
    rw [hd, hr]
    constructor
    · intro h
      simp only [Bool.and_eq_true] at h
      obtain ⟨⟨hne, hcol⟩, hmid⟩ := h
      obtain ⟨rest0, hrest⟩ :=
        (startsList_iff [':']
          (r.drop (r.takeWhile (fun c => !isJsWs c && c != ':')).length)).mp hcol
      rw [drop_length_takeWhile] at hrest
      rw [drop_length_takeWhile, hrest] at hmid
      obtain ⟨path, hpath, hpne, hpws⟩ := (midGitTail_iff rest0).mp hmid
      refine ⟨r.takeWhile (fun c => !isJsWs c && c != ':'), path, ?_, by simpa using hne,
        ?_, ?_, hpne, hpws⟩
      · congr 1
        conv_lhs => rw [← List.takeWhile_append_dropWhile (p := fun c => !isJsWs c && c != ':') (l := r)]
        rw [hrest, hpath]
        rfl
      · intro c hc
        have hq := List.mem_takeWhile_imp hc
        simp only [Bool.and_eq_true] at hq
        simpa using hq.1
      · intro hc
        have hq := List.mem_takeWhile_imp hc
        simp at hq
    · rintro ⟨host, path, heq, hne, hws, hcol, hpne, hpws⟩
      have hreq : r = host ++ ':' :: (path ++ ".git".data) :=
        List.append_cancel_left heq
      subst hreq
      have hq : ∀ x ∈ host, (fun c => !isJsWs c && c != ':') x = true := by
        intro x hx
        have hwsx := hws x hx
        have hcx : x ≠ ':' := fun he => hcol (he ▸ hx)
        simp [hwsx, hcx]
      have htw : ((host ++ ':' :: (path ++ ".git".data)).takeWhile
          (fun c => !isJsWs c && c != ':')) = host :=
        takeWhile_append_stop _ _ _ _ hq (by simp)
      dsimp only
      rw [htw]
      have hdl : (host ++ ':' :: (path ++ ".git".data)).drop host.length =
          ':' :: (path ++ ".git".data) := List.drop_left _ _
      rw [hdl]
      simp only [Bool.and_eq_true]
      refine ⟨⟨by simpa using hne, rfl⟩, ?_⟩
      exact (midGitTail_iff _).mpr ⟨path, rfl, hpne, hpws⟩
  · rw [if_neg h1]
    constructor
    · intro h
      exact Bool.noConfusion h
    · rintro ⟨host, path, heq, _⟩
      exact absurd ((startsList_iff _ _).mpr ⟨_, heq⟩) h1

instance (t : List Char) : Decidable (HttpsShape t) :=
  decidable_of_iff _ (httpsUrlTest_iff t)

instance (t : List Char) : Decidable (SshScpShape t) :=
  decidable_of_iff _ (sshScpUrlTest_iff t)

instance (t : List Char) : Decidable (SshUrlShape t) :=
  decidable_of_iff _ (sshUrlTest_iff t)

instance (t : List Char) : Decidable (GitUrlShape t) :=
  decidable_of_iff _ (gitUrlTest_iff t)

instance (t : List Char) : Decidable (FileShape t) :=
  decidable_of_iff _ (fileUrlTest_iff t)

instance (t : List Char) : Decidable (RemoteUrlShape t) := by
  unfold RemoteUrlShape
  infer_instance

/-- C8 counterexample: the SSH shorthand only accepts the literal user
`git` (`alice@host:path.git` is rejected), and the `file://` prefix is
matched case-sensitively, so the acceptance set of the claim is wrong. -/
theorem c8_counterexample :
    (validateRemoteUrl "alice@github.com:user/repo.git".data).valid = false ∧
    (validateRemoteUrl "FILE:///srv/repo".data).valid = false := by decide

/-- C8 amended: `validateRemoteUrl` accepts exactly (case-insensitively
for the scheme-based forms) `https://…git` or `http://…git`, the SSH
shorthand with literal user `git@host:path.git`, `ssh://…git`,
`git://…git`, and absolute local file paths optionally prefixed with a
lower-case `file://`; every other non-empty string is invalid with the
HTTPS and SSH example suggestions; every `git://` URL is valid with a
warning recommending HTTPS or SSH. -/
theorem c8_amended (url : List Char) :
    ((validateRemoteUrl url).valid = true ↔
      jsTrim url ≠ [] ∧ RemoteUrlShape (jsTrim url)) ∧
    (jsTrim url ≠ [] → ¬ RemoteUrlShape (jsTrim url) →
      (validateRemoteUrl url).error = some "Invalid remote URL format" ∧
      (validateRemoteUrl url).suggestions =
        some ["HTTPS: https://github.com/user/repo.git",
              "SSH: git@github.com:user/repo.git"]) ∧
    (GitUrlShape (jsTrim url) →
      (validateRemoteUrl url).valid = true ∧
      (validateRemoteUrl url).warnings =
        some ["Git protocol is unencrypted. Consider using HTTPS or SSH."]) := by
  have hbig : (httpsUrlTest (jsTrim url) || sshScpUrlTest (jsTrim url) ||
      sshUrlTest (jsTrim url) || gitUrlTest (jsTrim url) ||
      fileUrlTest (jsTrim url)) = true ↔ RemoteUrlShape (jsTrim url) := by
    simp only [Bool.or_eq_true, httpsUrlTest_iff, sshScpUrlTest_iff, sshUrlTest_iff,
      gitUrlTest_iff, fileUrlTest_iff, RemoteUrlShape]
    tauto
  simp only [validateRemoteUrl]
  split_ifs with h1 h2 h3
  · refine ⟨by simp [h1], fun hne _ => absurd h1 hne, fun hg => ?_⟩
    exfalso
    obtain ⟨m, heq, _⟩ := hg
    rw [h1] at heq
    simp at heq
  · have hb : ¬ RemoteUrlShape (jsTrim url) := by
      intro hs
      have := hbig.mpr hs
      simp [this] at h2
    refine ⟨?_, fun _ _ => ⟨rfl, rfl⟩,
      fun hg => absurd (Or.inr (Or.inr (Or.inr (Or.inl hg)))) hb⟩
    constructor
    · intro h
      exact nomatch h
    · intro h
      exact absurd h.2 hb
  · have hbg : (httpsUrlTest (jsTrim url) || sshScpUrlTest (jsTrim url) ||
        sshUrlTest (jsTrim url) || gitUrlTest (jsTrim url) ||
        fileUrlTest (jsTrim url)) = true := by
      cases hx : (httpsUrlTest (jsTrim url) || sshScpUrlTest (jsTrim url) ||
          sshUrlTest (jsTrim url) || gitUrlTest (jsTrim url) ||
          fileUrlTest (jsTrim url)) with
      | false => exact absurd (by rw [hx]; rfl) h2
      | true => rfl
    exact ⟨⟨fun _ => ⟨h1, hbig.mp hbg⟩, fun _ => rfl⟩,
      fun _ hns => absurd (hbig.mp hbg) hns,
      fun _ => ⟨rfl, rfl⟩⟩
  · have hbg : (httpsUrlTest (jsTrim url) || sshScpUrlTest (jsTrim url) ||
        sshUrlTest (jsTrim url) || gitUrlTest (jsTrim url) ||
        fileUrlTest (jsTrim url)) = true := by
      cases hx : (httpsUrlTest (jsTrim url) || sshScpUrlTest (jsTrim url) ||
          sshUrlTest (jsTrim url) || gitUrlTest (jsTrim url) ||
          fileUrlTest (jsTrim url)) with
      | false => exact absurd (by rw [hx]; rfl) h2
      | true => rfl
    exact ⟨⟨fun _ => ⟨h1, hbig.mp hbg⟩, fun _ => rfl⟩,
      fun _ hns => absurd (hbig.mp hbg) hns,
      fun hg => absurd ((gitUrlTest_iff _).mpr hg) h3⟩

/-- C8 amended witness: a rejected `ftp://` URL carries the two example
suggestions, and a `git://` URL is valid with the unencrypted-protocol
warning. -/
theorem c8_amended_witness :
    (validateRemoteUrl "ftp://github.com/user/repo.git".data).error =
      some "Invalid remote URL format" ∧
    (validateRemoteUrl "ftp://github.com/user/repo.git".data).suggestions =
      some ["HTTPS: https://github.com/user/repo.git",
            "SSH: git@github.com:user/repo.git"] ∧
    (validateRemoteUrl "git://internal/repo.git".data).valid = true ∧
    (validateRemoteUrl "git://internal/repo.git".data).warnings =
      some ["Git protocol is unencrypted. Consider using HTTPS or SSH."] := by
  have hft := (c8_amended "ftp://github.com/user/repo.git".data).2.1
    (by decide) (by decide)
  have hgt := (c8_amended "git://internal/repo.git".data).2.2 (by decide)
  exact ⟨hft.1, hft.2, hgt.1, hgt.2⟩

/-! ## Claim C3: conventional-commit round trip -/

theorem splitCh_cons_sep (d : Char) (r : List Char) :
    splitCh d (d :: r) = [] :: splitCh d r := by
  simp [splitCh]

theorem splitCh_cons_ne (d c : Char) (r : List Char) (h : ¬ c = d) :
    splitCh d (c :: r) =
      (c :: (splitCh d r).headD []) :: (splitCh d r).tail := by
  simp [splitCh, h]

theorem splitCh_head_tail (d : Char) (l : List Char) :
    splitCh d l = (l.takeWhile (fun c => c != d)) :: (splitCh d l).tail := by
  induction l with
  | nil => rfl
  | cons c r ih =>
    by_cases h : c = d
    · subst h
      simp [splitCh_cons_sep, List.takeWhile_cons]
    · rw [splitCh_cons_ne d c r h, List.takeWhile_cons]
      have hb : (c != d) = true := by simp [h]
      rw [hb]
      simp only [if_true, List.tail_cons]
      have hh : (splitCh d r).headD [] = r.takeWhile (fun c => c != d) := by
        rw [ih]
        rfl
      rw [hh]

theorem splitCh_ne_nil (d : Char) (l : List Char) : splitCh d l ≠ [] := by
  rw [splitCh_head_tail d l]
  exact List.cons_ne_nil _ _

theorem splitCh_append_sep (d : Char) (a r : List Char) :
    splitCh d (a ++ d :: r) = splitCh d a ++ splitCh d r := by
  induction a with
  | nil => simp [splitCh]
  | cons c a2 ih =>
    by_cases hc : c = d
    · subst hc
      rw [List.cons_append, splitCh_cons_sep, splitCh_cons_sep, ih]
      rfl
    · rw [List.cons_append, splitCh_cons_ne d c _ hc, splitCh_cons_ne d c a2 hc, ih]
      obtain ⟨t, ht⟩ : ∃ t, splitCh d a2 = a2.takeWhile (fun x => x != d) :: t :=
        ⟨(splitCh d a2).tail, splitCh_head_tail d a2⟩
      rw [ht]
      simp

theorem splitCh_no_sep (d : Char) (a : List Char) (h : ¬ d ∈ a) :
    splitCh d a = [a] := by
  induction a with
  | nil => rfl
  | cons c a2 ih =>
    have hc : ¬ c = d := fun he => h (he ▸ List.mem_cons_self _ _)
    rw [splitCh_cons_ne d c a2 hc, ih (fun hm => h (List.mem_cons_of_mem _ hm))]
    rfl

theorem joinCh_splitCh (d : Char) (l : List Char) :
    joinCh d (splitCh d l) = l := by
  induction l with
  | nil => rfl
  | cons c r ih =>
    by_cases hc : c = d
    · rw [hc, splitCh_cons_sep]
      obtain ⟨x, xs, hx⟩ : ∃ x xs, splitCh d r = x :: xs :=
        ⟨_, _, splitCh_head_tail d r⟩
      rw [hx]
      rw [hx] at ih
      show d :: joinCh d (x :: xs) = d :: r
      rw [ih]
    · rw [splitCh_cons_ne d c r hc]
      obtain ⟨x, xs, hx⟩ : ∃ x xs, splitCh d r = x :: xs :=
        ⟨_, _, splitCh_head_tail d r⟩
      rw [hx]
      rw [hx] at ih
      simp only [List.headD_cons, List.tail_cons]
      cases xs with
      | nil =>
        show c :: x = c :: r
        rw [show joinCh d [x] = x from rfl] at ih
        rw [ih]
      | cons y ys =>
        show (c :: x) ++ d :: joinCh d (y :: ys) = c :: r
        rw [show joinCh d (x :: y :: ys) = x ++ d :: joinCh d (y :: ys) from rfl] at ih
        simp only [List.cons_append]
        rw [ih]

theorem joinCh_append_nil_chunk (d : Char) (x : List Char) (xs : List (List Char)) :
    joinCh d ((x :: xs) ++ [[]]) = joinCh d (x :: xs) ++ [d] := by
  induction xs generalizing x with
  | nil =>
    show joinCh d [x, []] = joinCh d [x] ++ [d]
    show x ++ d :: joinCh d [[]] = x ++ [d]
    rfl
  | cons y ys ih =>
    show x ++ d :: joinCh d ((y :: ys) ++ [[]]) = (x ++ d :: joinCh d (y :: ys)) ++ [d]
    rw [ih y]
    simp

theorem classifyLines_true (ls : List (List Char)) :
    classifyLines ls true = ([], ls) := by
  induction ls with
  | nil => rfl
  | cons l ls2 ih =>
    rw [classifyLines]
    simp only [Bool.true_or, ih]
    simp

theorem classifyLines_footer_start (l : List Char) (ls : List (List Char))
    (h : isFooterLine l = true) :
    classifyLines (l :: ls) false = ([], l :: ls) := by
  rw [classifyLines]
  simp only [Bool.false_or, h, classifyLines_true]
  simp

theorem classifyLines_nonfooter_append (xs ys : List (List Char))
    (h : ∀ l ∈ xs, isFooterLine l = false) :
    classifyLines (xs ++ ys) false =
      (xs ++ (classifyLines ys false).1, (classifyLines ys false).2) := by
  induction xs with
  | nil => simp
  | cons x xs2 ih =>
    have hx : isFooterLine x = false := h x (List.mem_cons_self _ _)
    rw [List.cons_append, classifyLines]
    simp only [Bool.false_or, hx, ih (fun l hl => h l (List.mem_cons_of_mem _ hl))]
    simp

theorem dropWhile_length_eq_self (p : Char → Bool) (l : List Char)
    (h : (l.dropWhile p).length = l.length) : l.dropWhile p = l := by
  have hsplit := List.takeWhile_append_dropWhile (p := p) (l := l)
  have hlen := congrArg List.length hsplit
  simp only [List.length_append] at hlen
  have : (l.takeWhile p).length = 0 := by omega
  have htw : l.takeWhile p = [] := List.length_eq_zero.mp this
  rw [htw] at hsplit
  simpa using hsplit

theorem jsTrim_parts (l : List Char) (h : jsTrim l = l) :
    l.dropWhile isJsWs = l ∧ dropLastWhile isJsWs l = l := by
  have h1 : (l.dropWhile isJsWs).length ≤ l.length := length_dropWhile_le _ _
  have h2 : (dropLastWhile isJsWs (l.dropWhile isJsWs)).length ≤
      (l.dropWhile isJsWs).length := dropLastWhile_length _ _
  have h3 : jsTrim l = dropLastWhile isJsWs (l.dropWhile isJsWs) := rfl
  have hlen := congrArg List.length h
  rw [h3] at hlen
  have hdw : l.dropWhile isJsWs = l := dropWhile_length_eq_self _ _ (by omega)
  refine ⟨hdw, ?_⟩
  calc dropLastWhile isJsWs l
      = dropLastWhile isJsWs (l.dropWhile isJsWs) := by rw [hdw]
    _ = jsTrim l := h3.symm
    _ = l := h

theorem dropLastWhile_append_single (p : Char → Bool) (xs : List Char) (c : Char)
    (hc : p c = true) : dropLastWhile p (xs ++ [c]) = dropLastWhile p xs := by
  induction xs with
  | nil =>
    show dropLastWhile p [c] = []
    rw [dropLastWhile]
    rw [if_pos ⟨rfl, hc⟩]
  | cons x xs2 ih =>
    show dropLastWhile p (x :: (xs2 ++ [c])) = dropLastWhile p (x :: xs2)
    rw [dropLastWhile, ih, dropLastWhile]

theorem jsTrim_append_nl (b : List Char) (hne : b ≠ []) (htrim : jsTrim b = b) :
    jsTrim (b ++ ['\n']) = b := by
  obtain ⟨hdw, hdlw⟩ := jsTrim_parts b htrim
  obtain ⟨c, r, rfl⟩ : ∃ c r, b = c :: r := by
    cases b with
    | nil => exact absurd rfl hne
    | cons c r => exact ⟨c, r, rfl⟩
  have hc : isJsWs c = false := by
    by_contra hcc
    have hcc2 : isJsWs c = true := by
      cases hcv : isJsWs c
      · exact absurd hcv hcc
      · rfl
    have h1 := congrArg List.length hdw
    rw [List.dropWhile_cons, if_pos hcc2] at h1
    have h2 := length_dropWhile_le isJsWs r
    simp only [List.length_cons] at h1
    omega
  have hstep : List.dropWhile isJsWs ((c :: r) ++ ['\n']) = (c :: r) ++ ['\n'] := by
    rw [List.cons_append, List.dropWhile_cons, if_neg (by simp [hc])]
  show trimRightWs (List.dropWhile isJsWs ((c :: r) ++ ['\n'])) = c :: r
  rw [hstep]
  show dropLastWhile isJsWs ((c :: r) ++ ['\n']) = c :: r
  rw [dropLastWhile_append_single isJsWs (c :: r) '\n' (by decide)]
  exact hdlw

theorem scanScope_colon (l : List Char) : scanScope (':' :: l) = some (none, ':' :: l) := rfl

theorem scanScope_bangHead (l : List Char) : scanScope ('!' :: l) = some (none, '!' :: l) := rfl

theorem scanBang_colon (l : List Char) : scanBang (':' :: l) = (false, ':' :: l) := rfl

theorem scanBang_bang (l : List Char) : scanBang ('!' :: l) = (true, l) := rfl

theorem scanDesc_space (d : List Char) (hd : d ≠ [])
    (hdh : isJsWs (d.headD ' ') = false)
    (hdt : ∀ c ∈ d, isLineTerm c = false) : scanDesc (' ' :: d) = some d := by
  obtain ⟨c, r, rfl⟩ : ∃ c r, d = c :: r := by
    cases d with
    | nil => exact absurd rfl hd
    | cons c r => exact ⟨c, r, rfl⟩
  have h1 : (' ' :: c :: r).takeWhile isJsWs = [' '] := by
    rw [List.takeWhile_cons, if_pos (by decide), List.takeWhile_cons,
      if_neg (by simp_all [List.headD_cons])]
  have h2 : (c :: r).any isLineTerm = false := by
    cases hv : (c :: r).any isLineTerm
    · rfl
    · obtain ⟨x, hx, hpx⟩ := List.any_eq_true.mp hv
      exact absurd hpx (by simp [hdt x hx])
  simp only [scanDesc]
  rw [h1]
  show (if (c :: r).any isLineTerm = true then none else some (c :: r)) = some (c :: r)
  rw [h2, if_neg (by decide)]

/-- A carriage return inside the subject kills the match: `.` does not
cross line terminators and `$` anchors at the end of the string, so
`feat: a\rb` is not a conventional subject. -/
theorem parse_cr_subject_none :
    parseConventionalCommit "feat: a\rb".data = none := by decide

theorem isEmpty_false_of_ne_nil {α : Type} (l : List α) (h : l ≠ []) :
    l.isEmpty = false := by
  cases l with
  | nil => exact absurd rfl h
  | cons c r => rfl

/-- The subject produced by `generateConventionalCommit` is matched back by
the subject regex to the original components. -/
theorem matchConventionalSubject_gen (ty : List Char) (sc : Option (List Char))
    (br : Bool) (d : List Char)
    (hty : ty ≠ []) (htyw : ∀ c ∈ ty, isWordChar c = true)
    (hsc : match sc with
           | some s => s ≠ [] ∧ ∀ c ∈ s, c ≠ ')' ∧ c ≠ '\n'
           | none => True)
    (hd : d ≠ []) (hdh : isJsWs (d.headD ' ') = false)
    (hdt : ∀ c ∈ d, isLineTerm c = false) :
    matchConventionalSubject (genSubjectLine ty sc br d) = some (ty, sc, br, d) := by
  have htyE : ty.isEmpty = false := isEmpty_false_of_ne_nil ty hty
  cases sc with
  | none =>
    cases br with
    | false =>
      have hform : genSubjectLine ty none false d = ty ++ ':' :: ' ' :: d := by
        simp [genSubjectLine]
      rw [hform]
      have h1 : (ty ++ ':' :: ' ' :: d).takeWhile isWordChar = ty :=
        takeWhile_append_stop _ _ _ _ htyw (by decide)
      have h2 : (ty ++ ':' :: ' ' :: d).drop ty.length = ':' :: ' ' :: d :=
        List.drop_left _ _
      simp only [matchConventionalSubject]
      rw [h1, htyE, if_neg (by decide), h2, scanScope_colon]
      show (match scanDesc (' ' :: d) with
            | none => none
            | some d0 => some (ty, (none : Option (List Char)), false, d0)) =
          some (ty, (none : Option (List Char)), false, d)
      rw [scanDesc_space d hd hdh hdt]
    | true =>
      have hform : genSubjectLine ty none true d = ty ++ '!' :: ':' :: ' ' :: d := by
        simp [genSubjectLine]
      rw [hform]
      have h1 : (ty ++ '!' :: ':' :: ' ' :: d).takeWhile isWordChar = ty :=
        takeWhile_append_stop _ _ _ _ htyw (by decide)
      have h2 : (ty ++ '!' :: ':' :: ' ' :: d).drop ty.length = '!' :: ':' :: ' ' :: d :=
        List.drop_left _ _
      simp only [matchConventionalSubject]
      rw [h1, htyE, if_neg (by decide), h2, scanScope_bangHead]
      show (match scanDesc (' ' :: d) with
            | none => none
            | some d0 => some (ty, (none : Option (List Char)), true, d0)) =
          some (ty, (none : Option (List Char)), true, d)
      rw [scanDesc_space d hd hdh hdt]
  | some s =>
    obtain ⟨hsne, hscl⟩ := hsc
    have hsE : s.isEmpty = false := isEmpty_false_of_ne_nil s hsne
    have hsq : ∀ x ∈ s, (x != ')') = true := fun x hx => by
      simpa using (hscl x hx).1
    cases br with
    | false =>
      have hform : genSubjectLine ty (some s) false d =
          ty ++ '(' :: (s ++ ')' :: ':' :: ' ' :: d) := by
        simp [genSubjectLine, hsE]
      rw [hform]
      have h1 : (ty ++ '(' :: (s ++ ')' :: ':' :: ' ' :: d)).takeWhile isWordChar = ty :=
        takeWhile_append_stop _ _ _ _ htyw (by decide)
      have h2 : (ty ++ '(' :: (s ++ ')' :: ':' :: ' ' :: d)).drop ty.length =
          '(' :: (s ++ ')' :: ':' :: ' ' :: d) := List.drop_left _ _
      have htw : (s ++ ')' :: ':' :: ' ' :: d).takeWhile (fun c => c != ')') = s :=
        takeWhile_append_stop _ _ _ _ hsq (by decide)
      have hdr : (s ++ ')' :: ':' :: ' ' :: d).drop s.length = ')' :: ':' :: ' ' :: d :=
        List.drop_left _ _
      simp only [matchConventionalSubject]
      rw [h1, htyE, if_neg (by decide), h2]
      simp only [scanScope]
      rw [htw, hdr, hsE]
      show (match scanDesc (' ' :: d) with
            | none => none
            | some d0 => some (ty, (some s : Option (List Char)), false, d0)) =
          some (ty, (some s : Option (List Char)), false, d)
      rw [scanDesc_space d hd hdh hdt]
    | true =>
      have hform : genSubjectLine ty (some s) true d =
          ty ++ '(' :: (s ++ ')' :: '!' :: ':' :: ' ' :: d) := by
        simp [genSubjectLine, hsE]
      rw [hform]
      have h1 : (ty ++ '(' :: (s ++ ')' :: '!' :: ':' :: ' ' :: d)).takeWhile isWordChar = ty :=
        takeWhile_append_stop _ _ _ _ htyw (by decide)
      have h2 : (ty ++ '(' :: (s ++ ')' :: '!' :: ':' :: ' ' :: d)).drop ty.length =
          '(' :: (s ++ ')' :: '!' :: ':' :: ' ' :: d) := List.drop_left _ _
      have htw : (s ++ ')' :: '!' :: ':' :: ' ' :: d).takeWhile (fun c => c != ')') = s :=
        takeWhile_append_stop _ _ _ _ hsq (by decide)
      have hdr : (s ++ ')' :: '!' :: ':' :: ' ' :: d).drop s.length =
          ')' :: '!' :: ':' :: ' ' :: d := List.drop_left _ _
      simp only [matchConventionalSubject]
      rw [h1, htyE, if_neg (by decide), h2]
      simp only [scanScope]
      rw [htw, hdr, hsE]
      show (match scanDesc (' ' :: d) with
            | none => none
            | some d0 => some (ty, (some s : Option (List Char)), true, d0)) =
          some (ty, (some s : Option (List Char)), true, d)
      rw [scanDesc_space d hd hdh hdt]

/-- The generated subject line contains no newline. -/
theorem subject_no_newline (ty : List Char) (sc : Option (List Char)) (br : Bool)
    (d : List Char)
    (htyw : ∀ c ∈ ty, isWordChar c = true)
    (hsc : match sc with
           | some s => s ≠ [] ∧ ∀ c ∈ s, c ≠ ')' ∧ c ≠ '\n'
           | none => True)
    (hdn : ∀ c ∈ d, c ≠ '\n') :
    ¬ '\n' ∈ genSubjectLine ty sc br d := by
  intro hmem
  simp only [genSubjectLine, List.mem_append, List.mem_cons] at hmem
  rcases hmem with ((h | h) | h) | h
  · exact absurd (htyw _ h) (by decide)
  · cases sc with
    | none => simp at h
    | some s =>
      obtain ⟨hsne, hscl⟩ := hsc
      have hsE : s.isEmpty = false := isEmpty_false_of_ne_nil s hsne
      have h2 : '\n' ∈ ('(' :: s ++ [')']) := by
        simpa [hsE] using h
      simp only [List.cons_append, List.mem_cons, List.mem_append,
        List.mem_singleton] at h2
      rcases h2 with h2 | h2 | h2
      · exact absurd h2 (by decide)
      · exact (hscl _ h2).2 rfl
      · exact absurd h2 (by decide)
  · cases br with
    | false => simp at h
    | true =>
      rw [if_pos rfl] at h
      simp only [List.mem_singleton] at h
      exact absurd h (by decide)
  · rcases h with h | h | h
    · exact absurd h (by decide)
    · exact absurd h (by decide)
    · exact hdn _ h rfl

theorem classifyLines_nonfooter (xs : List (List Char))
    (h : ∀ l ∈ xs, isFooterLine l = false) :
    classifyLines xs false = (xs, []) := by
  have hmain := classifyLines_nonfooter_append xs [] h
  have h0 : classifyLines [] false = ([], []) := rfl
  rw [h0] at hmain
  simpa using hmain

theorem classifyLines_cons_empty_footer (f : List Char)
    (hffoot : isFooterLine ((splitCh '\n' f).headD []) = true) :
    classifyLines ([] :: splitCh '\n' f) false = ([[]], splitCh '\n' f) := by
  obtain ⟨x, xs, hx⟩ : ∃ x xs, splitCh '\n' f = x :: xs :=
    ⟨_, _, splitCh_head_tail '\n' f⟩
  rw [hx] at hffoot ⊢
  simp only [List.headD_cons] at hffoot
  rw [classifyLines]
  simp only [Bool.false_or, show isFooterLine ([] : List Char) = false from rfl]
  rw [classifyLines_footer_start x xs hffoot]
  simp

/-- `parseConventionalCommit` on a message whose first line is `subj`,
second line is empty, and remaining lines are `rest`. -/
theorem parseConventionalCommit_split (msg subj : List Char)
    (rest : List (List Char)) (ty : List Char) (sc : Option (List Char))
    (br : Bool) (d : List Char)
    (hsp : splitCh '\n' msg = subj :: [] :: rest)
    (hsubj : matchConventionalSubject subj = some (ty, sc, br, d))
    (hrest : rest ≠ []) :
    parseConventionalCommit msg =
      some ⟨ty, sc, br, d,
        (if !(classifyLines rest false).1.isEmpty
         then some (jsTrim (joinCh '\n' (classifyLines rest false).1)) else none),
        (if !(classifyLines rest false).2.isEmpty
         then some (jsTrim (joinCh '\n' (classifyLines rest false).2)) else none)⟩ := by
  have hlen : 2 < (subj :: [] :: rest).length := by
    simp only [List.length_cons]
    have : 0 < rest.length := List.length_pos.mpr hrest
    omega
  simp only [parseConventionalCommit]
  rw [hsp]
  simp only [List.headD_cons]
  rw [hsubj]
  rw [if_pos hlen]
  rfl

/-- `parseConventionalCommit` on a one-line message. -/
theorem parseConventionalCommit_single (msg subj : List Char) (ty : List Char)
    (sc : Option (List Char)) (br : Bool) (d : List Char)
    (hsp : splitCh '\n' msg = [subj])
    (hsubj : matchConventionalSubject subj = some (ty, sc, br, d)) :
    parseConventionalCommit msg = some ⟨ty, sc, br, d, none, none⟩ := by
  simp only [parseConventionalCommit]
  rw [hsp]
  simp only [List.headD_cons]
  rw [hsubj]
  rfl

/-! ## Claim C9: path traversal segments -/

theorem ddAtHead_iff (l : List Char) :
    ddAtHead l = true ↔ l.takeWhile (fun c => c != '/') = "..".data := by
  rcases l with _ | ⟨a, _ | ⟨b, _ | ⟨c, r⟩⟩⟩
  · simp [ddAtHead]
  · by_cases h1 : a = '/' <;> by_cases h2 : a = '.' <;>
      simp_all [ddAtHead, List.takeWhile_cons]
  · by_cases h1 : a = '/' <;> by_cases h2 : a = '.' <;>
      by_cases h3 : b = '/' <;> by_cases h4 : b = '.' <;>
      simp_all [ddAtHead, List.takeWhile_cons]
  · by_cases h1 : a = '/' <;> by_cases h2 : a = '.' <;>
      by_cases h3 : b = '/' <;> by_cases h4 : b = '.' <;>
      by_cases h5 : c = '/' <;>
      simp_all [ddAtHead, List.takeWhile_cons]

theorem hasTraversalAux_iff (l : List Char) :
    hasTraversalAux l = true ↔ "..".data ∈ (splitCh '/' l).tail := by
  induction l with
  | nil => simp [hasTraversalAux, splitCh]
  | cons c r ih =>
    by_cases h : c = '/'
    · subst h
      rw [splitCh_cons_sep, List.tail_cons]
      conv_rhs => rw [splitCh_head_tail '/' r]
      have hdd := ddAtHead_iff r
      simp only [hasTraversalAux, beq_self_eq_true, Bool.true_and,
        Bool.or_eq_true, List.mem_cons, hdd, ih]
      constructor
      · rintro (h1 | h2)
        · exact Or.inl h1.symm
        · exact Or.inr h2
      · rintro (h1 | h2)
        · exact Or.inl h1.symm
        · exact Or.inr h2
    · rw [splitCh_cons_ne '/' c r h, List.tail_cons]
      have hb : (c == '/') = false := by simp [h]
      simp only [hasTraversalAux, hb, Bool.false_and, Bool.false_or]
      exact ih

theorem hasTraversal_iff (l : List Char) :
    hasTraversal l = true ↔ "..".data ∈ splitCh '/' l := by
  rw [hasTraversal]
  conv_rhs => rw [splitCh_head_tail '/' l]
  simp only [Bool.or_eq_true, ddAtHead_iff, hasTraversalAux_iff, List.mem_cons]
  constructor
  · rintro (h1 | h2)
    · exact Or.inl h1.symm
    · exact Or.inr h2
  · rintro (h1 | h2)
    · exact Or.inl h1.symm
    · exact Or.inr h2

/-- C9: `validateFilePath(p)` is invalid exactly when the trimmed path is
empty, contains a null byte, or has `..` as a whole `/`-separated
segment; `"a/../b"` and `"../x"` are invalid while `"foo..bar"` is valid. -/
theorem c9_filePath_traversal (p : List Char) :
    ((validateFilePath p).valid = false ↔
      jsTrim p = [] ∨ '\x00' ∈ jsTrim p ∨ "..".data ∈ splitCh '/' (jsTrim p)) ∧
    (validateFilePath "a/../b".data).valid = false ∧
    (validateFilePath "../x".data).valid = false ∧
    (validateFilePath "foo..bar".data).valid = true := by
  refine ⟨?_, by decide, by decide, by decide⟩
  simp only [validateFilePath]
  split_ifs with h1 h2 h3
  · simp [h1]
  · have hm : '\x00' ∈ jsTrim p := by simpa using h2
    simp [hm]
  · have hm : "..".data ∈ splitCh '/' (jsTrim p) := (hasTraversal_iff _).mp h3
    simp [hm]
  · have hm2 : ¬ '\x00' ∈ jsTrim p := by simpa using h2
    have hm3 : ¬ "..".data ∈ splitCh '/' (jsTrim p) := fun hx =>
      h3 ((hasTraversal_iff _).mpr hx)
    simp [h1, hm2, hm3]

/-! ## Claim C3 -/

/-- C3 counterexample: the claim puts no conditions on the body, but a
body whose line matches the footer heuristic is parsed back as footer.
With type `feat`, description `a` and body `Fixes #1`, the generated
message `feat: a\n\nFixes #1` parses to body `none` and footer
`Fixes #1`, so the parsed body does not equal the input body. -/
theorem c3_counterexample :
    parseConventionalCommit
      (generateConventionalCommit "feat".data none "a".data
        (some "Fixes #1".data) false none) =
      some ⟨"feat".data, none, false, "a".data, none, some "Fixes #1".data⟩ := by
  decide

/-- C3 (amended): the round trip
`parseConventionalCommit (generateConventionalCommit …) = some ⟨…⟩` holds
when the type is a non-empty `\w+` word; the scope, if present, is
non-empty and free of `)` and newlines; the description is non-empty,
free of line terminators (`\n`, `\r`, U+2028, U+2029, which `.` does not
match), and does not start with whitespace; the body, if present, is
non-empty, trim-stable, and none of its lines matches the footer
heuristic; and the footer, if present, is non-empty, trim-stable, and
its first line matches the footer heuristic. -/
theorem c3_amended (ty : List Char) (sc : Option (List Char)) (br : Bool)
    (d : List Char) (body footer : Option (List Char))
    (hty : ty ≠ []) (htyw : ∀ c ∈ ty, isWordChar c = true)
    (hsc : match sc with
           | some s => s ≠ [] ∧ ∀ c ∈ s, c ≠ ')' ∧ c ≠ '\n'
           | none => True)
    (hd : d ≠ []) (hdh : isJsWs (d.headD ' ') = false)
    (hdt : ∀ c ∈ d, isLineTerm c = false)
    (hb : match body with
          | some b => b ≠ [] ∧ jsTrim b = b ∧
              ∀ l ∈ splitCh '\n' b, isFooterLine l = false
          | none => True)
    (hf : match footer with
          | some f => f ≠ [] ∧ jsTrim f = f ∧
              isFooterLine ((splitCh '\n' f).headD []) = true
          | none => True) :
    parseConventionalCommit (generateConventionalCommit ty sc d body br footer) =
      some ⟨ty, sc, br, d, body, footer⟩ := by
  have hdn : ∀ c ∈ d, c ≠ '\n' := by
    intro c hc he
    have h := hdt c hc
    rw [he] at h
    exact absurd h (by decide)
  have hnl : ¬ '\n' ∈ genSubjectLine ty sc br d :=
    subject_no_newline ty sc br d htyw hsc hdn
  have hsubj := matchConventionalSubject_gen ty sc br d hty htyw hsc hd hdh hdt
  have hsp := splitCh_no_sep '\n' _ hnl
  cases body with
  | none =>
    cases footer with
    | none =>
      have hg : generateConventionalCommit ty sc d none br none =
          genSubjectLine ty sc br d := by
        simp [generateConventionalCommit, genSubjectLine]
      rw [hg]
      exact parseConventionalCommit_single _ _ ty sc br d hsp hsubj
    | some f =>
      obtain ⟨hfne, hftrim, hffoot⟩ := hf
      have hfE : f.isEmpty = false := isEmpty_false_of_ne_nil f hfne
      have hg : generateConventionalCommit ty sc d none br (some f) =
          genSubjectLine ty sc br d ++ '\n' :: ('\n' :: f) := by
        simp [generateConventionalCommit, genSubjectLine, hfE]
      have hlines : splitCh '\n' (genSubjectLine ty sc br d ++ '\n' :: ('\n' :: f)) =
          genSubjectLine ty sc br d :: [] :: splitCh '\n' f := by
        rw [splitCh_append_sep, hsp, splitCh_cons_sep]
        rfl
      have hcls : classifyLines (splitCh '\n' f) false = ([], splitCh '\n' f) := by
        obtain ⟨x, xs, hx⟩ : ∃ x xs, splitCh '\n' f = x :: xs :=
          ⟨_, _, splitCh_head_tail '\n' f⟩
        rw [hx] at hffoot ⊢
        simp only [List.headD_cons] at hffoot
        exact classifyLines_footer_start x xs hffoot
      rw [hg, parseConventionalCommit_split _ _ _ ty sc br d hlines hsubj
        (splitCh_ne_nil '\n' f), hcls]
      have hfE2 : (splitCh '\n' f).isEmpty = false :=
        isEmpty_false_of_ne_nil _ (splitCh_ne_nil '\n' f)
      rw [hfE2, joinCh_splitCh, hftrim]
      rfl
  | some b =>
    obtain ⟨hbne, hbtrim, hbfoot⟩ := hb
    have hbE : b.isEmpty = false := isEmpty_false_of_ne_nil b hbne
    cases footer with
    | none =>
      have hg : generateConventionalCommit ty sc d (some b) br none =
          genSubjectLine ty sc br d ++ '\n' :: ('\n' :: b) := by
        simp [generateConventionalCommit, genSubjectLine, hbE]
      have hlines : splitCh '\n' (genSubjectLine ty sc br d ++ '\n' :: ('\n' :: b)) =
          genSubjectLine ty sc br d :: [] :: splitCh '\n' b := by
        rw [splitCh_append_sep, hsp, splitCh_cons_sep]
        rfl
      have hcls : classifyLines (splitCh '\n' b) false = (splitCh '\n' b, []) :=
        classifyLines_nonfooter _ hbfoot
      rw [hg, parseConventionalCommit_split _ _ _ ty sc br d hlines hsubj
        (splitCh_ne_nil '\n' b), hcls]
      have hbE2 : (splitCh '\n' b).isEmpty = false :=
        isEmpty_false_of_ne_nil _ (splitCh_ne_nil '\n' b)
      rw [hbE2, joinCh_splitCh, hbtrim]
      rfl
    | some f =>
      obtain ⟨hfne, hftrim, hffoot⟩ := hf
      have hfE : f.isEmpty = false := isEmpty_false_of_ne_nil f hfne
      have hg : generateConventionalCommit ty sc d (some b) br (some f) =
          genSubjectLine ty sc br d ++ '\n' :: ('\n' :: (b ++ '\n' :: ('\n' :: f))) := by
        simp [generateConventionalCommit, genSubjectLine, hbE, hfE]
      have hlines : splitCh '\n'
          (genSubjectLine ty sc br d ++ '\n' :: ('\n' :: (b ++ '\n' :: ('\n' :: f)))) =
          genSubjectLine ty sc br d ::
            [] :: (splitCh '\n' b ++ [] :: splitCh '\n' f) := by
        rw [splitCh_append_sep, hsp, splitCh_cons_sep, splitCh_append_sep,
          splitCh_cons_sep]
        rfl
      have hcls : classifyLines (splitCh '\n' b ++ [] :: splitCh '\n' f) false =
          (splitCh '\n' b ++ [[]], splitCh '\n' f) := by
        rw [classifyLines_nonfooter_append _ _ hbfoot,
          classifyLines_cons_empty_footer f hffoot]
      have hrest : splitCh '\n' b ++ [] :: splitCh '\n' f ≠ [] := by
        simp
      rw [hg, parseConventionalCommit_split _ _ _ ty sc br d hlines hsubj
        hrest, hcls]
      have hbE2 : (splitCh '\n' b ++ [[]]).isEmpty = false := by
        simp [List.isEmpty_iff]
      have hjb : jsTrim (joinCh '\n' (splitCh '\n' b ++ [[]])) = b := by
        obtain ⟨x, xs, hx⟩ : ∃ x xs, splitCh '\n' b = x :: xs :=
          ⟨_, _, splitCh_head_tail '\n' b⟩
        rw [hx, joinCh_append_nil_chunk, ← hx, joinCh_splitCh]
        exact jsTrim_append_nl b hbne hbtrim
      have hfE2 : (splitCh '\n' f).isEmpty = false :=
        isEmpty_false_of_ne_nil _ (splitCh_ne_nil '\n' f)
      rw [hbE2, hjb, hfE2, joinCh_splitCh, hftrim]
      rfl

/-- C3 witness: a concrete round trip satisfying all hypotheses of the
amended claim, with scope, breaking marker, body and footer all present. -/
theorem c3_amended_witness :
    parseConventionalCommit
      (generateConventionalCommit "feat".data (some "ui".data) "add stuff".data
        (some "does things".data) true (some "Fixes #1".data)) =
      some ⟨"feat".data, some "ui".data, true, "add stuff".data,
        some "does things".data, some "Fixes #1".data⟩ :=
  c3_amended "feat".data (some "ui".data) true "add stuff".data
    (some "does things".data) (some "Fixes #1".data)
    (by decide) (by decide) (by decide) (by decide) (by decide) (by decide)
    (by decide) (by decide)

end GitNova
